import Mathlib

/-!
# Verification of the shopping-agent multi-agent platform

A shallow embedding of the core data model and operations of the
shopping-agent repository, together with proofs about them:

* `src/workflow/workflow_models.py` — workflow steps, validation,
  cycle detection and the Kahn-style level computation
  (`Workflow.get_execution_order`).
* `src/agents/base_agent.py` — the agent task queue (`add_task`,
  priority insertion, dependency gating).
* `src/tools/base_tool.py` — the tool runner (`BaseTool.run`) with its
  cache, rate limiter and statistics counters.
* `src/ai/agent_nlp_handler.py` — the confidence score.
* `src/ai/vector_db_handler.py` — the deterministic pseudo-embedding.
* `src/workflow/workflow_monitor.py` — alert-rule cooldowns.
* `src/workflow/workflow_engine.py` — `start_workflow` failure handling.

Python dictionaries keyed by step ids are modelled as total functions
updated pointwise plus the (insertion-ordered) key list; Python sets are
modelled as duplicate-free lists; `datetime` instants are integers
(seconds); Python's unbounded recursion/loops are modelled with an
explicit fuel argument, with the lemmas establishing that the fuel used
by the embedded entry points is sufficient.  Fields of the Python data
classes that none of the verified operations touch (timestamps, free-form
metadata dictionaries, ...) are omitted from the structures.
-/

namespace ShoppingAgent

/-! ## Workflow data model (src/workflow/workflow_models.py) -/

/-- A workflow step (`WorkflowStep` dataclass); only the fields read by
`validate`, `_has_circular_dependency` and `get_execution_order` are kept. -/
structure WorkflowStep where
  step_id : String
  name : String
  dependencies : List String
deriving DecidableEq, Repr

/-- A workflow variable (`WorkflowVariable`); `value = none` models Python
`None`. -/
structure WorkflowVariable where
  name : String
  value : Option String
  required : Bool
deriving DecidableEq, Repr

/-- Workflow status enumeration (`WorkflowStatus`). -/
inductive WorkflowStatus where
  | draft | active | running | completed | failed | paused | cancelled | archived
deriving DecidableEq, Repr

/-- The workflow definition (`Workflow` dataclass), restricted to the fields
used by validation, ordering and the engine's `start_workflow` checks.
`vars` models the Python field `variables` (a Lean keyword). -/
structure Workflow where
  workflow_id : String
  name : String
  steps : List WorkflowStep
  vars : List WorkflowVariable
  status : WorkflowStatus
  max_concurrent_executions : Nat
deriving DecidableEq, Repr

/-- `Workflow.get_step`: first step with the given id, if any. -/
def Workflow.get_step (w : Workflow) (sid : String) : Option WorkflowStep :=
  w.steps.find? (fun s => s.step_id == sid)

/-- `Workflow.get_variable_value` with default `None`: the value of the first
variable with the given name. -/
def Workflow.get_variable_value (w : Workflow) (name : String) : Option String :=
  match w.vars.find? (fun v => v.name == name) with
  | some v => v.value
  | none => none

/-! ### Kahn's algorithm (`Workflow.get_execution_order`)

The Python code builds two dicts keyed by the step ids (`in_degree` and
`graph`), then repeatedly emits the queue of in-degree-0 ids as one level,
decrementing the in-degrees of their graph successors.  Dicts become a key
list (`keysOf`, insertion order, first occurrence kept, exactly like dict
comprehension over the steps) plus total functions updated pointwise. -/

/-- Key list of a Python dict comprehension over `l`: first occurrences, in
order. -/
def keysOf (l : List String) : List String :=
  l.foldl (fun acc k => if k ∈ acc then acc else acc ++ [k]) []

/-- One `(dep, step_id)` pair of the graph-building loop: append the edge and
bump the in-degree when `dep` is a known key (`if dep in graph`). -/
def addEdge (ids : List String) (gd : (String → List String) × (String → Int))
    (e : String × String) : (String → List String) × (String → Int) :=
  if e.1 ∈ ids then
    ((fun x => if x = e.1 then gd.1 e.1 ++ [e.2] else gd.1 x),
     (fun x => if x = e.2 then gd.2 e.2 + 1 else gd.2 x))
  else gd

/-- The `(dep, step.step_id)` pairs in the order the nested `for` loops of
`get_execution_order` visit them. -/
def edgeList (steps : List WorkflowStep) : List (String × String) :=
  steps.flatMap (fun s => s.dependencies.map (fun dep => (dep, s.step_id)))

/-- Builds `graph` and `in_degree` of `get_execution_order`. -/
def buildGraphDeg (steps : List WorkflowStep) : (String → List String) × (String → Int) :=
  (edgeList steps).foldl (addEdge (keysOf (steps.map (·.step_id))))
    ((fun _ => []), (fun _ => 0))

/-- One neighbour visit of the level loop: decrement the in-degree; if it
reaches exactly 0, append the neighbour to the next queue. -/
def stepNeighbor (dq : (String → Int) × List String) (nb : String) :
    (String → Int) × List String :=
  ((fun x => if x = nb then dq.1 nb - 1 else dq.1 x),
   if dq.1 nb - 1 = 0 then dq.2 ++ [nb] else dq.2)

/-- Processing of one whole level: the nested loops `for step_id in
current_level: for neighbor in graph[step_id]` visit exactly the neighbour
sequence `queue.bind g`. -/
def processLevel (g : String → List String) (queue : List String)
    (d : String → Int) : (String → Int) × List String :=
  (queue.flatMap g).foldl stepNeighbor (d, [])

/-- The `while queue:` loop of `get_execution_order`, with fuel.  The fuel
passed by `get_execution_order` strictly dominates the loop measure (total
positive in-degree plus queue length), which is proved to shrink every
iteration, so the 0-fuel branch is never taken from the entry point. -/
def kahnRun (g : String → List String) : Nat → (String → Int) → List String →
    List (List String)
  | 0, _, _ => []
  | fuel + 1, d, queue =>
    if queue.isEmpty then []
    else
      let p := processLevel g queue d
      queue :: kahnRun g fuel p.1 p.2

/-- Total positive in-degree over the key list — the loop measure. -/
def degSum (ids : List String) (d : String → Int) : Nat :=
  (ids.map (fun x => (d x).toNat)).sum

/-- `Workflow.get_execution_order`: Kahn's-algorithm level computation. -/
def Workflow.get_execution_order (w : Workflow) : List (List String) :=
  let ids := keysOf (w.steps.map (·.step_id))
  let gd := buildGraphDeg w.steps
  let queue := ids.filter (fun x => gd.2 x = 0)
  kahnRun gd.1 (degSum ids gd.2 + ids.length + 1) gd.2 queue

/-! ### Cycle detection (`Workflow._has_circular_dependency`)

Depth-first search with a shared `visited` set and a per-root recursion
stack.  Python's `rec_stack.remove(step_id)` before a `False` return makes
the stack's net mutation across a child call the identity, so the stack is
passed down functionally; `visited` is threaded through.  Fuel counts
`visit` calls: each call happens on an unvisited id and immediately marks
it visited, and every id ever visited lies in `dfsUniv`, so the fuel chosen
by `_has_circular_dependency` is never exhausted (established by the
lemmas below, which carry the corresponding bound hypothesis). -/

/-- Set-add on the list model of a Python `set`. -/
def addElem (x : String) (l : List String) : List String :=
  if x ∈ l then l else l ++ [x]

/-- `get_step` over a plain step list (used by `visit`). -/
def getStepL (steps : List WorkflowStep) (sid : String) : Option WorkflowStep :=
  steps.find? (fun s => s.step_id == sid)

/-- The `for dep in step.dependencies` loop inside `visit`; `visitF` is the
recursive `visit` at the next-smaller fuel. -/
def visitDeps (visitF : String → List String → List String → Bool × List String) :
    List String → List String → List String → Bool × List String
  | [], visited, _ => (false, visited)
  | d :: ds, visited, recStack =>
    if d ∈ visited then
      if d ∈ recStack then (true, visited)
      else visitDeps visitF ds visited recStack
    else
      match visitF d visited recStack with
      | (true, v2) => (true, v2)
      | (false, v2) => visitDeps visitF ds v2 recStack

/-- The inner `visit(step_id, visited, rec_stack)` closure of
`_has_circular_dependency`.  Returns the cycle flag and the final
`visited` set. -/
def visit (steps : List WorkflowStep) : Nat → String → List String → List String →
    Bool × List String
  | 0, _, visited, _ => (false, visited)
  | fuel + 1, sid, visited, recStack =>
    let v1 := addElem sid visited
    let r1 := addElem sid recStack
    match getStepL steps sid with
    | none => (false, v1)
    | some st => visitDeps (visit steps fuel) st.dependencies v1 r1

/-- The root loop `for step in self.steps: if step.step_id not in visited:
if visit(...): return True`. -/
def hasCircularAux (steps : List WorkflowStep) (fuel : Nat) :
    List WorkflowStep → List String → Bool
  | [], _ => false
  | st :: rest, visited =>
    if st.step_id ∈ visited then hasCircularAux steps fuel rest visited
    else
      match visit steps fuel st.step_id visited [] with
      | (true, _) => true
      | (false, v2) => hasCircularAux steps fuel rest v2

/-- Every id the DFS can ever visit: the step ids and all declared
dependency ids. -/
def dfsUniv (steps : List WorkflowStep) : List String :=
  steps.map (·.step_id) ++ steps.flatMap (·.dependencies)

/-- `Workflow._has_circular_dependency`. -/
def Workflow.hasCircularDependency (w : Workflow) : Bool :=
  hasCircularAux w.steps ((dfsUniv w.steps).length + 1) w.steps []

/-! ### Validation (`Workflow.validate`) -/

/-- The cycle error message appended by `validate`. -/
def cycleError : String := "순환 의존성이 발견되었습니다"

/-- `Workflow.validate`: the accumulated error list. -/
def Workflow.validate (w : Workflow) : List String :=
  let step_ids := w.steps.map (·.step_id)
  (if w.name = "" then ["워크플로우 이름이 필요합니다"] else [])
  ++ (if w.steps.isEmpty then ["최소 하나의 스텝이 필요합니다"] else [])
  ++ (if step_ids.length ≠ step_ids.dedup.length then ["스텝 ID가 중복됩니다"] else [])
  ++ w.steps.flatMap (fun s =>
      (s.dependencies.filter (fun d => d ∉ step_ids)).map (fun d =>
        "스텝 '" ++ s.name ++ "'의 의존성 '" ++ d ++ "'를 찾을 수 없습니다"))
  ++ (if w.hasCircularDependency then [cycleError] else [])
  ++ ((w.vars.filter (·.required)).map (·.name)).filterMap (fun n =>
      if (w.get_variable_value n).isNone then
        some ("필수 변수 '" ++ n ++ "'의 값이 설정되지 않았습니다")
      else none)

/-! ### Concrete workflows used by the claims -/

/-- A step with only the ordering-relevant data. -/
def mkStep (sid : String) (deps : List String) : WorkflowStep :=
  { step_id := sid, name := sid, dependencies := deps }

/-- The diamond workflow `A→[]`, `B→[A]`, `C→[A]`, `D→[B,C]`. -/
def diamondWorkflow : Workflow :=
  { workflow_id := "wf_diamond", name := "diamond",
    steps := [mkStep "A" [], mkStep "B" ["A"], mkStep "C" ["A"], mkStep "D" ["B", "C"]],
    vars := [], status := .active, max_concurrent_executions := 1 }

/-- The two-step cyclic workflow `A→[B]`, `B→[A]`. -/
def cyclicWorkflow : Workflow :=
  { workflow_id := "wf_cyclic", name := "cyclic",
    steps := [mkStep "A" ["B"], mkStep "B" ["A"]],
    vars := [], status := .active, max_concurrent_executions := 1 }

example : diamondWorkflow.get_execution_order = [["A"], ["B", "C"], ["D"]] := by decide

example : cyclicWorkflow.hasCircularDependency = true := by decide

example : cycleError ∈ cyclicWorkflow.validate := by decide

example : cyclicWorkflow.get_execution_order = [] := by decide

/-! ## Agent task queue (src/agents/base_agent.py) -/

/-- Task status enumeration (`TaskStatus`). -/
inductive TaskStatus where
  | pending | in_progress | completed | failed | cancelled
deriving DecidableEq, Repr

/-- An agent task (`AgentTask` dataclass, src/ai/agent_nlp_handler.py); only
the fields read by `add_task` and the queue are kept. -/
structure AgentTask where
  task_id : String
  priority : Int
  dependencies : List String
deriving DecidableEq, Repr

/-- A task execution record (`TaskExecution`); only id and status are read by
`_is_dependency_satisfied`. -/
structure TaskExecution where
  task_id : String
  status : TaskStatus
deriving DecidableEq, Repr

/-- The agent state slice relevant to `add_task` and `_process_tasks`. -/
structure AgentState where
  task_queue : List AgentTask
  completed_tasks : List TaskExecution
deriving DecidableEq, Repr

/-- The insertion loop of `add_task`: insert before the first queued task of
strictly lower priority, else append. -/
def insertByPriority (task : AgentTask) : List AgentTask → List AgentTask
  | [] => [task]
  | t :: ts =>
    if task.priority > t.priority then task :: t :: ts
    else t :: insertByPriority task ts

/-- `BaseAgent._is_dependency_satisfied`. -/
def isDependencySatisfied (s : AgentState) (dep : String) : Bool :=
  s.completed_tasks.any (fun t => t.task_id == dep && t.status == TaskStatus.completed)

/-- `BaseAgent.add_task`: dependency gate, then priority insertion.  The
Python `for dep_id in task.dependencies: if not ...: return False` loop is
the `all` check (vacuously true when the list is empty, matching the
`if task.dependencies:` guard). -/
def add_task (s : AgentState) (task : AgentTask) : Bool × AgentState :=
  if task.dependencies.all (isDependencySatisfied s) then
    (true, { s with task_queue := insertByPriority task s.task_queue })
  else (false, s)

/-- The dequeue of `BaseAgent._process_tasks`: `task_queue.pop(0)`. -/
def dequeueNext (s : AgentState) : Option AgentTask × AgentState :=
  match s.task_queue with
  | [] => (none, s)
  | t :: rest => (some t, { s with task_queue := rest })

/-- A queue built by adding dependency-free tasks in order. -/
def buildQueue (tasks : List AgentTask) : List AgentTask :=
  tasks.foldl (fun q t => insertByPriority t q) []

/-- A dependency-free task. -/
def mkTask (tid : String) (p : Int) : AgentTask :=
  { task_id := tid, priority := p, dependencies := [] }

lemma mem_insertByPriority {t x : AgentTask} {q : List AgentTask} :
    x ∈ insertByPriority t q ↔ x = t ∨ x ∈ q := by
  induction q with
  | nil => simp [insertByPriority]
  | cons h rest ih =>
    by_cases hc : t.priority > h.priority
    · simp only [insertByPriority, if_pos hc, List.mem_cons]
    · simp only [insertByPriority, if_neg hc, List.mem_cons, ih]
      tauto

lemma sorted_insertByPriority {t : AgentTask} {q : List AgentTask}
    (hq : List.Sorted (fun a b => b.priority ≤ a.priority) q) :
    List.Sorted (fun a b => b.priority ≤ a.priority) (insertByPriority t q) := by
  induction q with
  | nil => simp [insertByPriority]
  | cons h rest ih =>
    rw [List.sorted_cons] at hq
    obtain ⟨hall, htail⟩ := hq
    by_cases hc : t.priority > h.priority
    · rw [insertByPriority, if_pos hc]
      rw [List.sorted_cons]
      refine ⟨?_, List.sorted_cons.mpr ⟨hall, htail⟩⟩
      intro b hb
      rcases List.mem_cons.mp hb with rfl | hb
      · exact le_of_lt hc
      · exact le_trans (hall b hb) (le_of_lt hc)
    · rw [insertByPriority, if_neg hc]
      rw [List.sorted_cons]
      refine ⟨?_, ih htail⟩
      intro b hb
      rcases mem_insertByPriority.mp hb with rfl | hb
      · exact le_of_not_lt hc
      · exact hall b hb

lemma filter_insertByPriority (t : AgentTask) (q : List AgentTask) (p : Int)
    (hq : List.Sorted (fun a b => b.priority ≤ a.priority) q) :
    (insertByPriority t q).filter (fun x => x.priority == p) =
      if t.priority = p then
        q.filter (fun x => x.priority == p) ++ [t]
      else q.filter (fun x => x.priority == p) := by
  induction q with
  | nil =>
    by_cases hp : t.priority = p <;>
      simp [insertByPriority, List.filter_cons, hp]
  | cons h rest ih =>
    rw [List.sorted_cons] at hq
    obtain ⟨hall, htail⟩ := hq
    by_cases hc : t.priority > h.priority
    · rw [insertByPriority, if_pos hc]
      by_cases hp : t.priority = p
      · have hnone : (h :: rest).filter (fun x => x.priority == p) = [] := by
          rw [List.filter_eq_nil_iff]
          intro b hb
          have hble : b.priority ≤ h.priority := by
            rcases List.mem_cons.mp hb with rfl | hb
            · exact le_refl _
            · exact hall b hb
          simp only [beq_iff_eq]
          omega
        simp [List.filter_cons, hp, hnone]
      · simp [List.filter_cons, hp, beq_iff_eq]
    · rw [insertByPriority, if_neg hc]
      by_cases hhp : h.priority = p <;>
        by_cases hp : t.priority = p <;>
          simp [List.filter_cons, hhp, hp, ih htail, beq_iff_eq]

lemma sorted_foldl_insert (ts : List AgentTask) :
    ∀ q : List AgentTask, List.Sorted (fun a b => b.priority ≤ a.priority) q →
      List.Sorted (fun a b => b.priority ≤ a.priority)
        (ts.foldl (fun q t => insertByPriority t q) q) := by
  induction ts with
  | nil => intro q hq; simpa using hq
  | cons t ts ih =>
    intro q hq
    exact ih _ (sorted_insertByPriority hq)

lemma filter_foldl_insert (p : Int) (ts : List AgentTask) :
    ∀ q : List AgentTask, List.Sorted (fun a b => b.priority ≤ a.priority) q →
      (ts.foldl (fun q t => insertByPriority t q) q).filter (fun x => x.priority == p)
        = q.filter (fun x => x.priority == p) ++ ts.filter (fun x => x.priority == p) := by
  induction ts with
  | nil => intro q hq; simp
  | cons t ts ih =>
    intro q hq
    rw [List.foldl_cons, ih _ (sorted_insertByPriority hq),
      filter_insertByPriority t q p hq]
    by_cases hp : t.priority = p
    · simp [List.filter_cons, hp]
    · simp [List.filter_cons, hp]

/-- C2: the agent's queue is kept ordered by non-increasing priority with
equal-priority tasks in original insertion order (for each priority value,
the queue's restriction to that priority equals the insertion sequence's),
the main loop dequeues from the front, and inserting tasks with priorities
`[1, 5, 3, 5, 2]` yields dequeue order `5, 5, 3, 2, 1` with the two
priority-5 tasks in their original relative order. -/
theorem C2_task_queue_priority_order :
    (∀ tasks : List AgentTask,
        List.Sorted (fun a b => b.priority ≤ a.priority) (buildQueue tasks))
    ∧ (∀ (tasks : List AgentTask) (p : Int),
        (buildQueue tasks).filter (fun x => x.priority == p)
          = tasks.filter (fun x => x.priority == p))
    ∧ (∀ s : AgentState, (dequeueNext s).1 = s.task_queue.head?)
    ∧ buildQueue
          [mkTask "t1" 1, mkTask "t2" 5, mkTask "t3" 3, mkTask "t4" 5, mkTask "t5" 2]
        = [mkTask "t2" 5, mkTask "t4" 5, mkTask "t3" 3, mkTask "t5" 2, mkTask "t1" 1] := by
  refine ⟨?_, ?_, ?_, by decide⟩
  · intro tasks
    exact sorted_foldl_insert tasks [] (by simp)
  · intro tasks p
    simpa using filter_foldl_insert p tasks [] (by simp)
  · intro s
    cases h : s.task_queue <;> simp [dequeueNext, h]

/-- C4: a task with dependencies is rejected (false, queue unchanged) unless
every dependency id occurs in `completed_tasks` with status completed, in
which case it is accepted and inserted by priority. -/
theorem C4_add_task_dependency_gate (s : AgentState) (task : AgentTask)
    (hdep : task.dependencies ≠ []) :
    (¬ (∀ d ∈ task.dependencies, ∃ e ∈ s.completed_tasks,
          e.task_id = d ∧ e.status = TaskStatus.completed) →
        add_task s task = (false, s))
    ∧ ((∀ d ∈ task.dependencies, ∃ e ∈ s.completed_tasks,
          e.task_id = d ∧ e.status = TaskStatus.completed) →
        add_task s task =
          (true, { s with task_queue := insertByPriority task s.task_queue })) := by
  have hiff : task.dependencies.all (isDependencySatisfied s) = true ↔
      (∀ d ∈ task.dependencies, ∃ e ∈ s.completed_tasks,
        e.task_id = d ∧ e.status = TaskStatus.completed) := by
    simp only [List.all_eq_true, isDependencySatisfied, List.any_eq_true,
      Bool.and_eq_true, beq_iff_eq]
  constructor
  · intro hne
    rw [add_task, if_neg]
    intro hc
    exact hne (hiff.mp hc)
  · intro hall
    rw [add_task, if_pos (hiff.mpr hall)]

/-- Witness for C4 at concrete inputs: a task depending on "X" is rejected
against an empty completion record, and accepted once "X" is completed. -/
theorem C4_add_task_dependency_gate_witness :
    add_task { task_queue := [], completed_tasks := [] }
        { task_id := "t", priority := 1, dependencies := ["X"] }
      = (false, { task_queue := [], completed_tasks := [] })
    ∧ add_task
        { task_queue := [],
          completed_tasks := [{ task_id := "X", status := TaskStatus.completed }] }
        { task_id := "t", priority := 1, dependencies := ["X"] }
      = (true,
          { task_queue := [{ task_id := "t", priority := 1, dependencies := ["X"] }],
            completed_tasks := [{ task_id := "X", status := TaskStatus.completed }] }) := by
  constructor
  · exact (C4_add_task_dependency_gate _ _ (by decide)).1 (by decide)
  · exact (C4_add_task_dependency_gate _ _ (by decide)).2 (by decide)

/-! ## NLP confidence score (src/ai/agent_nlp_handler.py) -/

/-- Intent enumeration (`IntentType`). -/
inductive IntentType where
  | question | command | request | greeting | unknown
deriving DecidableEq, Repr

/-- Python `w in t` over character lists: some suffix of `t` starts with `w`. -/
def subSeg (w : List Char) : List Char → Bool
  | [] => decide (w = [])
  | c :: rest => decide ((c :: rest).take w.length = w) || subSeg w rest

/-- Python substring containment `w in t`. -/
def strContains (t w : String) : Bool := subSeg w.data t.data

/-- Word counter over characters: counts maximal runs of non-space
characters; `inWord` records whether the previous character was part of a
word. -/
def countWordsAux : List Char → Bool → Nat
  | [], _ => 0
  | c :: rest, inWord =>
    if c = ' ' then countWordsAux rest false
    else (if inWord then 0 else 1) + countWordsAux rest true

/-- Python `len(text.split())`; the split-on-any-whitespace of `str.split()`
is modelled as split on spaces (identical on the space-separated inputs the
handler's claims concern). -/
def pyWordCount (text : String) : Nat :=
  countWordsAux text.data false

/-- The special-keyword list of `_calculate_confidence`
(analyze / summarize / help / question). -/
def confidenceKeywords : List String := ["분석", "요약", "도움", "질문"]

/-- Round-half-to-even on rationals (Python's `round` on the exact values;
every confidence value is a multiple of 1/20, on which any tie-breaking
convention agrees). -/
def roundHalfEven (q : ℚ) : ℤ :=
  if q - ⌊q⌋ = 1/2 then (if ⌊q⌋ % 2 = 0 then ⌊q⌋ else ⌊q⌋ + 1) else round q

/-- Python `round(q, 2)`. -/
def round2 (q : ℚ) : ℚ := (roundHalfEven (q * 100) : ℚ) / 100

/-- `AgentNLPHandler._calculate_confidence` (the `task_type` argument is not
read by the Python body and is omitted): 0.5 base, +0.2 for a non-unknown
intent, +min(word_count*0.05, 0.2), +0.1 for a special keyword, capped at
1.0 and rounded to 2 decimals. -/
def calculate_confidence (text : String) (intent : IntentType) : ℚ :=
  let base : ℚ := 1/2
  let patternBonus : ℚ := if intent ≠ IntentType.unknown then 1/5 else 0
  let lengthBonus : ℚ := min ((pyWordCount text : ℚ) * (1/20)) (1/5)
  let keywordBonus : ℚ := if confidenceKeywords.any (fun w => strContains text w) then 1/10 else 0
  round2 (min (base + patternBonus + lengthBonus + keywordBonus) 1)

/-- C5: the confidence equals
`round(min(0.5 + (0.2 if intent ≠ unknown) + min(word_count*0.05, 0.2)
+ (0.1 if a special keyword occurs), 1.0), 2)`; and a 10-word
pattern-matched input containing the keyword "분석" (analyze) scores 1.0. -/
theorem C5_confidence_formula :
    (∀ (text : String) (intent : IntentType),
      calculate_confidence text intent =
        round2 (min ((1 : ℚ)/2
          + (if intent ≠ IntentType.unknown then 1/5 else 0)
          + min ((pyWordCount text : ℚ) * (1/20)) (1/5)
          + (if confidenceKeywords.any (fun w => strContains text w) then 1/10 else 0)) 1))
    ∧ calculate_confidence "분석 둘 셋 넷 다섯 여섯 일곱 여덟 아홉 열" IntentType.question = 1 := by
  refine ⟨fun text intent => rfl, ?_⟩
  have hw : pyWordCount "분석 둘 셋 넷 다섯 여섯 일곱 여덟 아홉 열" = 10 := by decide
  have hk : (confidenceKeywords.any
      (fun w => strContains "분석 둘 셋 넷 다섯 여섯 일곱 여덟 아홉 열" w)) = true := by decide
  have hround : round2 1 = 1 := by
    norm_num [round2, roundHalfEven, round_eq]
  calc calculate_confidence "분석 둘 셋 넷 다섯 여섯 일곱 여덟 아홉 열" IntentType.question
      = round2 (min ((1 : ℚ)/2 + 1/5 + min ((10 : ℚ) * (1/20)) (1/5) + 1/10) 1) := by
        simp [calculate_confidence, hw, hk]
    _ = 1 := by
        rw [show ((1 : ℚ)/2 + 1/5 + min ((10 : ℚ) * (1/20)) (1/5) + 1/10) = 1 by
          rw [min_def]; norm_num]
        rw [min_self, hround]

/-! ## Alert rules (src/workflow/workflow_monitor.py) -/

/-- Alert severity enumeration (`AlertSeverity`). -/
inductive AlertSeverity where
  | low | medium | high | critical
deriving DecidableEq, Repr

/-- An alert rule (`AlertRule` dataclass).  `last_triggered` is a rational
timestamp in seconds (`none` models Python `None`); the `condition` string
is evaluated with Python `eval`, whose boolean outcome is passed to
`should_trigger` as an argument (`False` when evaluation raises). -/
structure AlertRule where
  rule_id : String
  name : String
  severity : AlertSeverity
  message_template : String
  enabled : Bool
  cooldown_minutes : Int
  last_triggered : Option ℤ
deriving DecidableEq, Repr

/-- `AlertRule.should_trigger` at instant `now`. -/
def AlertRule.should_trigger (r : AlertRule) (now : ℤ) (condResult : Bool) : Bool :=
  if !r.enabled then false
  else
    match r.last_triggered with
    | some t => if now - t < r.cooldown_minutes * 60 then false else condResult
    | none => condResult

/-- A monitoring event (`MonitoringEvent`), restricted to the fields the
cooldown claim observes. -/
structure MonitoringEvent where
  event_type : String
  workflow_id : String
  timestamp : ℤ
deriving DecidableEq, Repr

/-- `WorkflowMonitor._trigger_alert`: stamp the rule and record a
`performance_alert` event. -/
def triggerAlert (r : AlertRule) (wid : String) (now : ℤ)
    (events : List MonitoringEvent) : AlertRule × List MonitoringEvent :=
  ({ r with last_triggered := some now },
   events ++ [{ event_type := "performance_alert", workflow_id := wid, timestamp := now }])

/-- One rule evaluation of `_check_metric_alerts`: fire the rule iff
`should_trigger` says so. -/
def checkRule (r : AlertRule) (wid : String) (now : ℤ) (condResult : Bool)
    (events : List MonitoringEvent) : AlertRule × List MonitoringEvent :=
  if r.should_trigger now condResult then triggerAlert r wid now events
  else (r, events)

/-- C7: once a rule has fired (via `_trigger_alert` at `t0`), every
evaluation strictly less than `cooldown_minutes` later returns false and
records no event, even with a true condition; once the cooldown has
elapsed, a true condition fires an enabled rule again. -/
theorem C7_alert_cooldown (r : AlertRule) (wid : String) (t0 now : ℤ)
    (b : Bool) (events evs : List MonitoringEvent) :
    (now - t0 < r.cooldown_minutes * 60 →
      ((triggerAlert r wid t0 events).1.should_trigger now b = false
        ∧ checkRule (triggerAlert r wid t0 events).1 wid now b evs
            = ((triggerAlert r wid t0 events).1, evs)))
    ∧ (r.enabled = true → r.cooldown_minutes * 60 ≤ now - t0 →
        (triggerAlert r wid t0 events).1.should_trigger now true = true) := by
  constructor
  · intro hlt
    have hst : (triggerAlert r wid t0 events).1.should_trigger now b = false := by
      simp only [triggerAlert, AlertRule.should_trigger]
      cases he : r.enabled <;> simp [he, if_pos hlt]
    exact ⟨hst, by simp [checkRule, hst]⟩
  · intro hen hge
    simp only [triggerAlert, AlertRule.should_trigger, hen]
    simp [not_lt.mpr hge]

/-- A concrete enabled rule with the default 5-minute cooldown. -/
def baseRule : AlertRule :=
  { rule_id := "high_error_rate", name := "high error rate",
    severity := AlertSeverity.high, message_template := "error rate high",
    enabled := true, cooldown_minutes := 5, last_triggered := none }

/-- Witness for C7 at concrete values: the rule fired at t=0 is silent at
t=100 (inside the 300-second cooldown) and fires again at t=300. -/
theorem C7_alert_cooldown_witness :
    (triggerAlert baseRule "wf" 0 []).1.should_trigger 100 true = false
    ∧ checkRule (triggerAlert baseRule "wf" 0 []).1 "wf" 100 true []
        = ((triggerAlert baseRule "wf" 0 []).1, [])
    ∧ (triggerAlert baseRule "wf" 0 []).1.should_trigger 300 true = true := by
  refine ⟨?_, ?_, ?_⟩
  · exact ((C7_alert_cooldown baseRule "wf" 0 100 true [] []).1 (by decide)).1
  · exact ((C7_alert_cooldown baseRule "wf" 0 100 true [] []).1 (by decide)).2
  · exact (C7_alert_cooldown baseRule "wf" 0 300 true [] []).2 rfl (by decide)

/-! ## Workflow engine (src/workflow/workflow_engine.py) -/

/-- The `.value` string of a `WorkflowStatus` member. -/
def WorkflowStatus.value : WorkflowStatus → String
  | .draft => "draft"
  | .active => "active"
  | .running => "running"
  | .completed => "completed"
  | .failed => "failed"
  | .paused => "paused"
  | .cancelled => "cancelled"
  | .archived => "archived"

/-- A workflow execution (`WorkflowExecution`), restricted to the fields
`start_workflow` writes or its concurrency check reads. -/
structure WorkflowExecution where
  execution_id : String
  workflow_id : String
  status : WorkflowStatus
deriving DecidableEq, Repr

/-- The engine state slice read and written by `start_workflow`:
the `workflows` and `executions` dicts as association lists. -/
structure WorkflowEngine where
  workflows : List (String × Workflow)
  executions : List (String × WorkflowExecution)
deriving DecidableEq, Repr

/-- Python `self.workflows.get(workflow_id)`. -/
def WorkflowEngine.getWorkflow (e : WorkflowEngine) (wid : String) : Option Workflow :=
  (e.workflows.find? (fun p => p.1 == wid)).map (·.2)

/-- The body of `start_workflow` up to and including its `raise` statements,
with a raised `ValueError` modelled as `Except.error` carrying the message. -/
def startWorkflowBody (e : WorkflowEngine) (wid : String) : Except String Workflow :=
  match e.getWorkflow wid with
  | none => Except.error ("워크플로우를 찾을 수 없음: " ++ wid)
  | some w =>
    if w.status ≠ WorkflowStatus.active then
      Except.error ("워크플로우가 활성 상태가 아님: " ++ w.status.value)
    else
      let activeCount := (e.executions.filter (fun q =>
        q.2.workflow_id == wid && q.2.status == WorkflowStatus.running)).length
      if activeCount ≥ w.max_concurrent_executions then
        Except.error ("최대 동시 실행 수 초과: " ++ toString activeCount ++ "/"
          ++ toString w.max_concurrent_executions)
      else Except.ok w

/-- `WorkflowEngine.start_workflow`: the enclosing `try/except Exception`
catches every raised error, prints it, and returns `None`; the success path
registers a fresh running execution and returns its id.  The
timestamp-derived execution id is supplied as the `execId` argument. -/
def WorkflowEngine.start_workflow (e : WorkflowEngine) (wid execId : String) :
    Option String × WorkflowEngine :=
  match startWorkflowBody e wid with
  | Except.error _ => (none, e)
  | Except.ok _ =>
    (some execId,
     { e with executions := e.executions
        ++ [(execId, { execution_id := execId, workflow_id := wid,
                       status := WorkflowStatus.running })] })

/-- A stored workflow that is not active (status `draft`). -/
def draftWorkflow : Workflow :=
  { workflow_id := "wf1", name := "wf one", steps := [mkStep "A" []],
    vars := [], status := WorkflowStatus.draft, max_concurrent_executions := 1 }

/-- An engine holding only `draftWorkflow`. -/
def engineWithDraft : WorkflowEngine :=
  { workflows := [("wf1", draftWorkflow)], executions := [] }

/-- C8 counterexample: calling `start_workflow` on a stored non-active
workflow does NOT surface a raised failure to the caller — the internally
raised `ValueError` is caught by the method's own `try/except`, and the
caller receives the normal result value `None` with the engine unchanged. -/
theorem C8_counterexample :
    startWorkflowBody engineWithDraft "wf1"
        = Except.error "워크플로우가 활성 상태가 아님: draft"
    ∧ engineWithDraft.start_workflow "wf1" "exec1" = (none, engineWithDraft) := by
  constructor <;> rfl

/-- C8 amended: on a stored workflow whose status is not `active`,
`start_workflow` raises a `ValueError` internally, but its own
`try/except` handler recovers it, so the caller receives the normal
result value `None` and the engine state is unchanged (the raise is not
propagated; `ShoppingAgentApp.start_workflow` in src/main.py later turns
the `None` into a `RuntimeError` of its own). -/
theorem C8_start_workflow_inactive_returns_none (e : WorkflowEngine)
    (wid execId : String) (w : Workflow)
    (hw : e.getWorkflow wid = some w) (hst : w.status ≠ WorkflowStatus.active) :
    startWorkflowBody e wid
        = Except.error ("워크플로우가 활성 상태가 아님: " ++ w.status.value)
    ∧ e.start_workflow wid execId = (none, e) := by
  have hbody : startWorkflowBody e wid
      = Except.error ("워크플로우가 활성 상태가 아님: " ++ w.status.value) := by
    rw [startWorkflowBody, hw]
    simp [hst]
  exact ⟨hbody, by rw [WorkflowEngine.start_workflow, hbody]⟩

/-- Witness for C8's amended statement at the concrete draft-workflow
engine. -/
theorem C8_start_workflow_inactive_returns_none_witness :
    startWorkflowBody engineWithDraft "wf1"
        = Except.error ("워크플로우가 활성 상태가 아님: "
            ++ WorkflowStatus.value WorkflowStatus.draft)
    ∧ engineWithDraft.start_workflow "wf1" "exec1" = (none, engineWithDraft) :=
  C8_start_workflow_inactive_returns_none engineWithDraft "wf1" "exec1"
    draftWorkflow (by decide) (by decide)

/-! ## Tool runner (src/tools/base_tool.py)

`BaseTool.run` is modelled as a state transition.  The non-deterministic
environment of one call — the generated cache key (a pure function of the
keyword arguments, so identical parameters give identical keys), the
parameter-validation outcome, what the underlying `execute` coroutine does,
and the wall-clock readings — is packaged in `RunCall`.  The returned
`Bool` instruments whether the `execute` path was entered (it is not part
of the Python return value). -/

/-- `ToolResult` with payload type `α`. -/
structure ToolResult (α : Type) where
  success : Bool
  data : Option α
  error_message : String
  execution_time : ℤ
deriving DecidableEq, Repr

/-- `ToolResult.error_result` (dynamic parts of the messages are elided;
no claim inspects them). -/
def ToolResult.error_result (α : Type) (msg : String) (t : ℤ) : ToolResult α :=
  { success := false, data := none, error_message := msg, execution_time := t }

/-- `ToolConfig`, fields read by `run`. -/
structure ToolConfig where
  rate_limit_per_minute : Nat
  cache_enabled : Bool
  cache_ttl_seconds : ℤ
deriving DecidableEq, Repr

/-- The mutable tool state read and written by `run`. -/
structure ToolState (α : Type) where
  cache : List (String × ToolResult α)
  cache_timestamps : List (String × ℤ)
  execution_count : Nat
  success_count : Nat
  failure_count : Nat
  total_execution_time : ℤ
  rate_limit_timestamps : List ℤ
deriving DecidableEq, Repr

/-- The freshly constructed tool state. -/
def initialToolState (α : Type) : ToolState α :=
  { cache := [], cache_timestamps := [], execution_count := 0, success_count := 0,
    failure_count := 0, total_execution_time := 0, rate_limit_timestamps := [] }

/-- Python `dict.get`. -/
def dictGet {α : Type} (l : List (String × α)) (k : String) : Option α :=
  (l.find? (fun p => p.1 == k)).map (·.2)

/-- Python `dict[k] = v`. -/
def dictSet {α : Type} (l : List (String × α)) (k : String) (v : α) :
    List (String × α) :=
  if (l.find? (fun p => p.1 == k)).isSome then
    l.map (fun p => if p.1 == k then (k, v) else p)
  else l ++ [(k, v)]

/-- Python `del dict[k]`. -/
def dictDel {α : Type} (l : List (String × α)) (k : String) : List (String × α) :=
  l.filter (fun p => !(p.1 == k))

/-- `BaseTool._get_from_cache` at instant `now`: `none` on disabled cache,
missing key or expiry (expiry also deletes the entry). -/
def getFromCache {α : Type} (cfg : ToolConfig) (s : ToolState α) (key : String)
    (now : ℤ) : Option (ToolResult α) × ToolState α :=
  if ¬cfg.cache_enabled then (none, s)
  else
    match dictGet s.cache key with
    | none => (none, s)
    | some r =>
      match dictGet s.cache_timestamps key with
      | some ts =>
        if now - ts > cfg.cache_ttl_seconds then
          (none, { s with cache := dictDel s.cache key,
                          cache_timestamps := dictDel s.cache_timestamps key })
        else (some r, s)
      | none => (some r, s)

/-- `BaseTool._save_to_cache`: a no-op unless the cache is enabled and the
result succeeded. -/
def saveToCache {α : Type} (cfg : ToolConfig) (s : ToolState α) (key : String)
    (r : ToolResult α) (now : ℤ) : ToolState α :=
  if ¬cfg.cache_enabled ∨ r.success = false then s
  else { s with cache := dictSet s.cache key r,
                cache_timestamps := dictSet s.cache_timestamps key now }

/-- `BaseTool._check_rate_limit` at instant `now`: prune timestamps older
than one minute, reject at the limit, else record `now`. -/
def checkRateLimit {α : Type} (cfg : ToolConfig) (s : ToolState α) (now : ℤ) :
    Bool × ToolState α :=
  let kept := s.rate_limit_timestamps.filter (fun ts => ts > now - 60)
  if kept.length ≥ cfg.rate_limit_per_minute then
    (false, { s with rate_limit_timestamps := kept })
  else
    (true, { s with rate_limit_timestamps := kept ++ [now] })

/-- What the awaited `execute` call does in one run. -/
inductive ExecBehavior (α : Type) where
  | completes (r : ToolResult α)
  | timeout
  | cancelled
deriving DecidableEq, Repr

/-- The per-call environment of one `run` invocation. -/
structure RunCall (α : Type) where
  key : String
  paramsValid : Bool
  behavior : ExecBehavior α
  start : ℤ
  dur : ℤ
deriving DecidableEq, Repr

/-- `BaseTool.run`.  The `try/except` structure of the Python code:
a validation failure or rate-limit rejection raises and is caught by the
generic handler (`failure_count += 1`); a cache hit returns the cached
result untouched; a completed `execute` bumps `execution_count`, then
either `success_count` (and writes back to the cache) or `failure_count`;
`asyncio.TimeoutError` bumps `failure_count`; `asyncio.CancelledError`
touches no counter.  The third component records whether `execute` was
invoked. -/
def run {α : Type} (cfg : ToolConfig) (s : ToolState α) (c : RunCall α) :
    ToolResult α × ToolState α × Bool :=
  if ¬c.paramsValid then
    (ToolResult.error_result α "매개변수 유효성 검사 실패" c.dur,
     { s with failure_count := s.failure_count + 1 }, false)
  else
    match checkRateLimit cfg s c.start with
    | (false, s1) =>
      (ToolResult.error_result α "속도 제한 초과" c.dur,
       { s1 with failure_count := s1.failure_count + 1 }, false)
    | (true, s1) =>
      match getFromCache cfg s1 c.key c.start with
      | (some cached, s2) => (cached, s2, false)
      | (none, s2) =>
        match c.behavior with
        | ExecBehavior.timeout =>
          (ToolResult.error_result α "도구 실행 타임아웃" c.dur,
           { s2 with failure_count := s2.failure_count + 1 }, true)
        | ExecBehavior.cancelled =>
          (ToolResult.error_result α "도구 실행이 취소됨" c.dur, s2, true)
        | ExecBehavior.completes r =>
          let r1 := { r with execution_time := c.dur }
          let s3 := { s2 with execution_count := s2.execution_count + 1,
                              total_execution_time := s2.total_execution_time + c.dur }
          if r1.success then
            (r1, saveToCache cfg { s3 with success_count := s3.success_count + 1 }
                  c.key r1 (c.start + c.dur), true)
          else
            (r1, { s3 with failure_count := s3.failure_count + 1 }, true)

/-- A sequence of `run` calls from a starting state. -/
def runTrace {α : Type} (cfg : ToolConfig) (s : ToolState α) :
    List (RunCall α) → ToolState α
  | [] => s
  | c :: cs => runTrace cfg (run cfg s c).2.1 cs

lemma find?_map_replace {α : Type} {l : List (String × α)} {k : String} (v : α)
    (h : (l.find? (fun p => p.1 == k)).isSome) :
    (l.map (fun p => if p.1 == k then (k, v) else p)).find? (fun p => p.1 == k)
      = some (k, v) := by
  induction l with
  | nil => simp at h
  | cons p ps ih =>
    by_cases hp : p.1 = k
    · have hc : (p.1 == k) = true := by simp [hp]
      simp only [List.map_cons, List.find?_cons, hc, if_true, if_pos]
      simp
    · have hc : (p.1 == k) = false := by simp [hp]
      simp only [List.find?_cons, hc, Bool.false_eq_true, if_false] at h
      simp only [List.map_cons, List.find?_cons, hc, Bool.false_eq_true, if_false]
      exact ih h

lemma find?_append_missing {α : Type} {l : List (String × α)} {k : String} (v : α)
    (h : l.find? (fun p => p.1 == k) = none) :
    (l ++ [(k, v)]).find? (fun p => p.1 == k) = some (k, v) := by
  rw [List.find?_append, h]
  simp

lemma dictGet_dictSet_self {α : Type} (l : List (String × α)) (k : String) (v : α) :
    dictGet (dictSet l k v) k = some v := by
  unfold dictGet dictSet
  by_cases h : (l.find? (fun p => p.1 == k)).isSome
  · rw [if_pos h, find?_map_replace v h]
    rfl
  · rw [if_neg h, find?_append_missing v (Option.not_isSome_iff_eq_none.mp h)]
    rfl

lemma dictGet_dictDel_self {α : Type} (l : List (String × α)) (k : String) :
    dictGet (dictDel l k) k = none := by
  induction l with
  | nil => rfl
  | cons p ps ih =>
    by_cases hp : p.1 = k
    · have hc : (!(p.1 == k)) = false := by simp [hp]
      simpa [dictDel, List.filter_cons, hc] using ih
    · have hc : (!(p.1 == k)) = true := by simp [hp]
      have hb : (p.1 == k) = false := by simp [hp]
      simp only [dictDel, List.filter_cons, hc, if_true]
      simp only [dictGet, List.find?_cons, hb, Bool.false_eq_true, if_false]
      exact ih

lemma dictGet_dictDel_sub {α : Type} {l : List (String × α)} {k k2 : String} {v : α}
    (h : dictGet (dictDel l k) k2 = some v) : dictGet l k2 = some v := by
  by_cases hk : k2 = k
  · subst hk
    rw [dictGet_dictDel_self] at h
    exact Option.noConfusion h
  · induction l with
    | nil => exact absurd h (by simp [dictDel, dictGet])
    | cons p ps ih =>
      by_cases hp : p.1 = k
      · have hc : (!(p.1 == k)) = false := by simp [hp]
        simp only [dictDel, List.filter_cons, hc, Bool.false_eq_true, if_false] at h
        have h2 := ih h
        have hb : (p.1 == k2) = false := by
          simp only [beq_eq_false_iff_ne, ne_eq]
          intro he
          exact hk (he ▸ hp ▸ rfl)
        simp only [dictGet, List.find?_cons, hb, Bool.false_eq_true, if_false]
        exact h2
      · have hc : (!(p.1 == k)) = true := by simp [hp]
        simp only [dictDel, List.filter_cons, hc, if_true] at h
        by_cases hck2 : p.1 = k2
        · have hb : (p.1 == k2) = true := by simp [hck2]
          simp only [dictGet, List.find?_cons, hb, if_true] at h ⊢
          exact h
        · have hb : (p.1 == k2) = false := by simp [hck2]
          simp only [dictGet, List.find?_cons, hb, Bool.false_eq_true, if_false] at h ⊢
          exact ih h

lemma dictGet_append_right {α : Type} {l : List (String × α)} {k : String} {v : α}
    (h : dictGet l k = none) : dictGet (l ++ [(k, v)]) k = some v := by
  unfold dictGet at h ⊢
  rw [find?_append_missing v (by
    rcases he : l.find? (fun p => p.1 == k) with _ | p
    · exact he
    · rw [he] at h
      exact Option.noConfusion h)]
  rfl

lemma checkRateLimit_pass {α : Type} {cfg : ToolConfig} {s : ToolState α} {now : ℤ}
    (h : (s.rate_limit_timestamps.filter (fun ts => ts > now - 60)).length
          < cfg.rate_limit_per_minute) :
    checkRateLimit cfg s now
      = (true, { s with rate_limit_timestamps :=
          s.rate_limit_timestamps.filter (fun ts => ts > now - 60) ++ [now] }) := by
  unfold checkRateLimit
  rw [if_neg (by omega)]

lemma checkRateLimit_counters {α : Type} (cfg : ToolConfig) (s : ToolState α) (now : ℤ) :
    (checkRateLimit cfg s now).2.execution_count = s.execution_count
    ∧ (checkRateLimit cfg s now).2.success_count = s.success_count
    ∧ (checkRateLimit cfg s now).2.failure_count = s.failure_count
    ∧ (checkRateLimit cfg s now).2.cache = s.cache
    ∧ (checkRateLimit cfg s now).2.cache_timestamps = s.cache_timestamps := by
  unfold checkRateLimit
  by_cases h : (s.rate_limit_timestamps.filter (fun ts => ts > now - 60)).length
      ≥ cfg.rate_limit_per_minute
  · rw [if_pos h]
    exact ⟨rfl, rfl, rfl, rfl, rfl⟩
  · rw [if_neg h]
    exact ⟨rfl, rfl, rfl, rfl, rfl⟩

lemma getFromCache_counters {α : Type} (cfg : ToolConfig) (s : ToolState α)
    (key : String) (now : ℤ) :
    (getFromCache cfg s key now).2.execution_count = s.execution_count
    ∧ (getFromCache cfg s key now).2.success_count = s.success_count
    ∧ (getFromCache cfg s key now).2.failure_count = s.failure_count := by
  unfold getFromCache
  split
  · simp
  · split
    · simp
    · split
      · split <;> simp
      · simp

lemma getFromCache_cache_sub {α : Type} {cfg : ToolConfig} {s : ToolState α}
    {key : String} {now : ℤ} {k2 : String} {v : ToolResult α}
    (h : dictGet ((getFromCache cfg s key now).2).cache k2 = some v) :
    dictGet s.cache k2 = some v := by
  unfold getFromCache at h
  revert h
  split
  · exact fun h => h
  · split
    · exact fun h => h
    · split
      · split
        · exact fun h => dictGet_dictDel_sub (by simpa using h)
        · exact fun h => h
      · exact fun h => h

lemma saveToCache_counters {α : Type} (cfg : ToolConfig) (s : ToolState α)
    (key : String) (r : ToolResult α) (now : ℤ) :
    (saveToCache cfg s key r now).execution_count = s.execution_count
    ∧ (saveToCache cfg s key r now).success_count = s.success_count
    ∧ (saveToCache cfg s key r now).failure_count = s.failure_count := by
  unfold saveToCache
  split <;> simp

lemma run_exec_success {α : Type} {cfg : ToolConfig} {s : ToolState α}
    {c : RunCall α} {r : ToolResult α}
    (hv : c.paramsValid = true)
    (hrl : (s.rate_limit_timestamps.filter (fun ts => ts > c.start - 60)).length
      < cfg.rate_limit_per_minute)
    (hcache : cfg.cache_enabled = true)
    (hmiss : dictGet s.cache c.key = none)
    (hb : c.behavior = ExecBehavior.completes r) (hr : r.success = true) :
    (run cfg s c).1 = { r with execution_time := c.dur }
    ∧ (run cfg s c).2.2 = true
    ∧ ((run cfg s c).2.1).cache
        = dictSet s.cache c.key { r with execution_time := c.dur }
    ∧ ((run cfg s c).2.1).cache_timestamps
        = dictSet s.cache_timestamps c.key (c.start + c.dur)
    ∧ ((run cfg s c).2.1).rate_limit_timestamps
        = s.rate_limit_timestamps.filter (fun ts => ts > c.start - 60) ++ [c.start] := by
  have hr1 : ({ r with execution_time := c.dur } : ToolResult α).success = true := hr
  unfold run
  rw [if_neg (by simp [hv]), checkRateLimit_pass hrl]
  simp only []
  have hgfc : getFromCache cfg
      { s with rate_limit_timestamps :=
          s.rate_limit_timestamps.filter (fun ts => ts > c.start - 60) ++ [c.start] }
      c.key c.start
      = (none,
         { s with rate_limit_timestamps :=
            s.rate_limit_timestamps.filter (fun ts => ts > c.start - 60) ++ [c.start] }) := by
    unfold getFromCache
    rw [if_neg (by simp [hcache])]
    have : dictGet ({ s with rate_limit_timestamps :=
        s.rate_limit_timestamps.filter (fun ts => ts > c.start - 60) ++ [c.start]
          } : ToolState α).cache c.key = none := hmiss
    rw [this]
  rw [hgfc, hb]
  simp only []
  rw [if_pos hr1]
  unfold saveToCache
  rw [if_neg (by simp [hcache, hr])]
  exact ⟨rfl, rfl, rfl, rfl, rfl⟩

lemma run_cache_hit {α : Type} {cfg : ToolConfig} {s : ToolState α}
    {c : RunCall α} {r : ToolResult α} {ts : ℤ}
    (hv : c.paramsValid = true)
    (hrl : (s.rate_limit_timestamps.filter (fun tt => tt > c.start - 60)).length
      < cfg.rate_limit_per_minute)
    (hcache : cfg.cache_enabled = true)
    (hhit : dictGet s.cache c.key = some r)
    (hts : dictGet s.cache_timestamps c.key = some ts)
    (httl : ¬ (c.start - ts > cfg.cache_ttl_seconds)) :
    (run cfg s c).1 = r ∧ (run cfg s c).2.2 = false := by
  unfold run
  rw [if_neg (by simp [hv]), checkRateLimit_pass hrl]
  simp only []
  have hgfc : getFromCache cfg
      { s with rate_limit_timestamps :=
          s.rate_limit_timestamps.filter (fun tt => tt > c.start - 60) ++ [c.start] }
      c.key c.start
      = (some r,
         { s with rate_limit_timestamps :=
            s.rate_limit_timestamps.filter (fun tt => tt > c.start - 60) ++ [c.start] }) := by
    unfold getFromCache
    rw [if_neg (by simp [hcache])]
    have h1 : dictGet ({ s with rate_limit_timestamps :=
        s.rate_limit_timestamps.filter (fun tt => tt > c.start - 60) ++ [c.start]
          } : ToolState α).cache c.key = some r := hhit
    have h2 : dictGet ({ s with rate_limit_timestamps :=
        s.rate_limit_timestamps.filter (fun tt => tt > c.start - 60) ++ [c.start]
          } : ToolState α).cache_timestamps c.key = some ts := hts
    rw [h1, h2]
    simp only []
    rw [if_neg httl]
  rw [hgfc]
  exact ⟨rfl, rfl⟩

/-- C3: with caching enabled, a second `run` with the same parameter key
within the TTL of a first successful run does not invoke `execute` again and
returns the cached result; and a run returning a failed result never adds a
cache entry (only successful results are written back). -/
theorem C3_tool_cache_behavior :
    (∀ (α : Type) (cfg : ToolConfig) (s0 : ToolState α) (c1 c2 : RunCall α)
        (r : ToolResult α),
      cfg.cache_enabled = true →
      c2.key = c1.key →
      c1.paramsValid = true → c2.paramsValid = true →
      c1.behavior = ExecBehavior.completes r → r.success = true →
      (s0.rate_limit_timestamps.filter (fun ts => ts > c1.start - 60)).length
          < cfg.rate_limit_per_minute →
      dictGet s0.cache c1.key = none →
      (((run cfg s0 c1).2.1).rate_limit_timestamps.filter
          (fun ts => ts > c2.start - 60)).length < cfg.rate_limit_per_minute →
      ¬ (c2.start - (c1.start + c1.dur) > cfg.cache_ttl_seconds) →
      (run cfg s0 c1).2.2 = true
        ∧ (run cfg ((run cfg s0 c1).2.1) c2).2.2 = false
        ∧ (run cfg ((run cfg s0 c1).2.1) c2).1 = (run cfg s0 c1).1)
    ∧ (∀ (α : Type) (cfg : ToolConfig) (s : ToolState α) (c : RunCall α),
        (run cfg s c).1.success = false →
        ∀ (k : String) (v : ToolResult α),
          dictGet ((run cfg s c).2.1).cache k = some v → dictGet s.cache k = some v) := by
  constructor
  · intro α cfg s0 c1 c2 r hcache hkey hv1 hv2 hb1 hr hrl1 hmiss hrl2 httl
    obtain ⟨hres1, hflag1, hc1, hts1, hrlts1⟩ :=
      run_exec_success hv1 hrl1 hcache hmiss hb1 hr
    have hhit2 : dictGet ((run cfg s0 c1).2.1).cache c2.key
        = some { r with execution_time := c1.dur } := by
      rw [hkey, hc1]
      exact dictGet_dictSet_self _ _ _
    have hts2 : dictGet ((run cfg s0 c1).2.1).cache_timestamps c2.key
        = some (c1.start + c1.dur) := by
      rw [hkey, hts1]
      exact dictGet_dictSet_self _ _ _
    obtain ⟨hres2, hflag2⟩ :=
      run_cache_hit hv2 hrl2 hcache hhit2 hts2 httl
    exact ⟨hflag1, hflag2, by rw [hres2, hres1]⟩
  · intro α cfg s c
    unfold run
    by_cases hv : c.paramsValid
    case neg =>
      rw [if_pos (by simp [hv])]
      intro _ k v hget
      exact hget
    case pos =>
      rw [if_neg (by simp [hv])]
      split
      case _ s1 heq =>
        have hs1cache : s1.cache = s.cache := by
          have h := (checkRateLimit_counters cfg s c.start).2.2.2.1
          rw [heq] at h
          exact h
        intro _ k v hget
        rw [← hs1cache]
        exact hget
      case _ s1 heq =>
        have hs1cache : s1.cache = s.cache := by
          have h := (checkRateLimit_counters cfg s c.start).2.2.2.1
          rw [heq] at h
          exact h
        have hsub2 : ∀ (s2 : ToolState α), getFromCache cfg s1 c.key c.start
              = (none, s2) ∨ (∃ res, getFromCache cfg s1 c.key c.start = (some res, s2)) →
            ∀ k v, dictGet s2.cache k = some v → dictGet s.cache k = some v := by
          intro s2 hor k v hh
          rw [← hs1cache]
          have hh2 : dictGet ((getFromCache cfg s1 c.key c.start).2).cache k = some v := by
            rcases hor with heq2 | ⟨res, heq2⟩ <;> rw [heq2] <;> exact hh
          exact getFromCache_cache_sub hh2
        split
        case _ cached s2 heq2 =>
          intro _ k v hget
          exact hsub2 s2 (Or.inr ⟨cached, heq2⟩) k v hget
        case _ s2 heq2 =>
          split
          case _ =>
            intro _ k v hget
            exact hsub2 s2 (Or.inl heq2) k v hget
          case _ =>
            intro _ k v hget
            exact hsub2 s2 (Or.inl heq2) k v hget
          case _ r2 heqb =>
            simp only []
            by_cases hsucc : ({ r2 with execution_time := c.dur } : ToolResult α).success = true
            · rw [if_pos hsucc]
              intro hfail
              rw [show ({ r2 with execution_time := c.dur } : ToolResult α).success
                  = r2.success from rfl] at hsucc
              exact absurd (hsucc ▸ hfail) (by simp)
            · rw [if_neg hsucc]
              intro _ k v hget
              exact hsub2 s2 (Or.inl heq2) k v hget

/-- Concrete tool configuration for the cache/counter witnesses. -/
def c3Cfg : ToolConfig :=
  { rate_limit_per_minute := 60, cache_enabled := true, cache_ttl_seconds := 300 }

/-- A successful concrete result. -/
def c3Res : ToolResult Nat :=
  { success := true, data := some 7, error_message := "", execution_time := 0 }

/-- First call: executes and caches. -/
def c3Call1 : RunCall Nat :=
  { key := "k", paramsValid := true, behavior := ExecBehavior.completes c3Res,
    start := 0, dur := 1 }

/-- Second call, same key, 100 seconds later (inside the 300s TTL). -/
def c3Call2 : RunCall Nat :=
  { key := "k", paramsValid := true, behavior := ExecBehavior.timeout,
    start := 100, dur := 2 }

/-- A failing concrete result. -/
def c3FailRes : ToolResult Nat :=
  { success := false, data := none, error_message := "boom", execution_time := 0 }

/-- A call whose `execute` fails. -/
def c3Call3 : RunCall Nat :=
  { key := "k2", paramsValid := true, behavior := ExecBehavior.completes c3FailRes,
    start := 0, dur := 1 }

/-- Witness for C3 at concrete inputs: the second same-key call within the
TTL does not execute and returns the first call's result; a failing run adds
no cache entry. -/
theorem C3_tool_cache_behavior_witness :
    ((run c3Cfg (initialToolState Nat) c3Call1).2.2 = true
      ∧ (run c3Cfg ((run c3Cfg (initialToolState Nat) c3Call1).2.1) c3Call2).2.2 = false
      ∧ (run c3Cfg ((run c3Cfg (initialToolState Nat) c3Call1).2.1) c3Call2).1
          = (run c3Cfg (initialToolState Nat) c3Call1).1)
    ∧ (∀ (k : String) (v : ToolResult Nat),
        dictGet ((run c3Cfg (initialToolState Nat) c3Call3).2.1).cache k = some v →
        dictGet (initialToolState Nat).cache k = some v) := by
  constructor
  · exact C3_tool_cache_behavior.1 Nat c3Cfg (initialToolState Nat) c3Call1 c3Call2 c3Res
      (by decide) (by decide) (by decide) (by decide) (by decide) (by decide)
      (by decide) (by decide) (by decide) (by decide)
  · exact C3_tool_cache_behavior.2 Nat c3Cfg (initialToolState Nat) c3Call3 (by decide)

/-- The statistics-counter invariant of C10. -/
def CounterInv {α : Type} (s : ToolState α) : Prop :=
  s.success_count ≤ s.execution_count
    ∧ s.execution_count ≤ s.success_count + s.failure_count

/-- Every `run` changes the three counters in one of four ways: not at all
(cache hit / cancellation), `failure_count + 1` alone (validation, rate
limit, timeout, failed execute), or `execution_count + 1` together with
exactly one of `success_count + 1` / `failure_count + 1` (completed
execute). -/
lemma run_counter_deltas {α : Type} (cfg : ToolConfig) (s : ToolState α)
    (c : RunCall α) :
    ((run cfg s c).2.1.execution_count = s.execution_count
      ∧ (run cfg s c).2.1.success_count = s.success_count
      ∧ (run cfg s c).2.1.failure_count = s.failure_count)
    ∨ ((run cfg s c).2.1.execution_count = s.execution_count
      ∧ (run cfg s c).2.1.success_count = s.success_count
      ∧ (run cfg s c).2.1.failure_count = s.failure_count + 1)
    ∨ ((run cfg s c).2.1.execution_count = s.execution_count + 1
      ∧ (run cfg s c).2.1.success_count = s.success_count + 1
      ∧ (run cfg s c).2.1.failure_count = s.failure_count)
    ∨ ((run cfg s c).2.1.execution_count = s.execution_count + 1
      ∧ (run cfg s c).2.1.success_count = s.success_count
      ∧ (run cfg s c).2.1.failure_count = s.failure_count + 1) := by
  unfold run
  by_cases hv : c.paramsValid
  case neg =>
    rw [if_pos (by simp [hv])]
    exact Or.inr (Or.inl ⟨rfl, rfl, rfl⟩)
  case pos =>
    rw [if_neg (by simp [hv])]
    split
    case _ s1 heq =>
      obtain ⟨e1, e2, e3, _, _⟩ := checkRateLimit_counters cfg s c.start
      rw [heq] at e1 e2 e3
      simp only [] at e1 e2 e3
      exact Or.inr (Or.inl ⟨e1, e2, by
        show s1.failure_count + 1 = s.failure_count + 1
        omega⟩)
    case _ s1 heq =>
      obtain ⟨e1, e2, e3, _, _⟩ := checkRateLimit_counters cfg s c.start
      rw [heq] at e1 e2 e3
      simp only [] at e1 e2 e3
      split
      case _ cached s2 heq2 =>
        obtain ⟨f1, f2, f3⟩ := getFromCache_counters cfg s1 c.key c.start
        rw [heq2] at f1 f2 f3
        simp only [] at f1 f2 f3
        refine Or.inl ⟨?_, ?_, ?_⟩
        · show s2.execution_count = s.execution_count
          omega
        · show s2.success_count = s.success_count
          omega
        · show s2.failure_count = s.failure_count
          omega
      case _ s2 heq2 =>
        obtain ⟨f1, f2, f3⟩ := getFromCache_counters cfg s1 c.key c.start
        rw [heq2] at f1 f2 f3
        simp only [] at f1 f2 f3
        split
        case _ =>
          refine Or.inr (Or.inl ⟨?_, ?_, ?_⟩)
          · show s2.execution_count = s.execution_count
            omega
          · show s2.success_count = s.success_count
            omega
          · show s2.failure_count + 1 = s.failure_count + 1
            omega
        case _ =>
          refine Or.inl ⟨?_, ?_, ?_⟩
          · show s2.execution_count = s.execution_count
            omega
          · show s2.success_count = s.success_count
            omega
          · show s2.failure_count = s.failure_count
            omega
        case _ r2 heqb =>
          simp only []
          by_cases hsucc : ({ r2 with execution_time := c.dur } : ToolResult α).success = true
          · rw [if_pos hsucc]
            obtain ⟨g1, g2, g3⟩ := saveToCache_counters cfg
              { s2 with execution_count := s2.execution_count + 1,
                         total_execution_time := s2.total_execution_time + c.dur,
                         success_count := s2.success_count + 1 }
              c.key { r2 with execution_time := c.dur } (c.start + c.dur)
            refine Or.inr (Or.inr (Or.inl ⟨?_, ?_, ?_⟩))
            · rw [g1]
              show s2.execution_count + 1 = s.execution_count + 1
              omega
            · rw [g2]
              show s2.success_count + 1 = s.success_count + 1
              omega
            · rw [g3]
              show s2.failure_count = s.failure_count
              omega
          · rw [if_neg hsucc]
            refine Or.inr (Or.inr (Or.inr ⟨?_, ?_, ?_⟩))
            · show s2.execution_count + 1 = s.execution_count + 1
              omega
            · show s2.success_count = s.success_count
              omega
            · show s2.failure_count + 1 = s.failure_count + 1
              omega

/-- C10: the counters satisfy
`success_count ≤ execution_count ≤ success_count + failure_count` after
every run (hence along every trace from a fresh tool); rate-limited and
timed-out runs bump `failure_count` but not `execution_count`; cache hits
change no counter. -/
theorem C10_tool_counter_invariant :
    (∀ (α : Type) (cfg : ToolConfig) (s : ToolState α) (c : RunCall α),
        CounterInv s → CounterInv ((run cfg s c).2.1))
    ∧ (∀ (α : Type) (cfg : ToolConfig) (calls : List (RunCall α)),
        CounterInv (runTrace cfg (initialToolState α) calls))
    ∧ (∀ (α : Type) (cfg : ToolConfig) (s : ToolState α) (c : RunCall α),
        c.paramsValid = true → (checkRateLimit cfg s c.start).1 = false →
        (run cfg s c).2.1.failure_count = s.failure_count + 1
          ∧ (run cfg s c).2.1.execution_count = s.execution_count
          ∧ (run cfg s c).2.1.success_count = s.success_count)
    ∧ (∀ (α : Type) (cfg : ToolConfig) (s : ToolState α) (c : RunCall α),
        c.paramsValid = true → (checkRateLimit cfg s c.start).1 = true →
        (getFromCache cfg (checkRateLimit cfg s c.start).2 c.key c.start).1 = none →
        c.behavior = ExecBehavior.timeout →
        (run cfg s c).2.1.failure_count = s.failure_count + 1
          ∧ (run cfg s c).2.1.execution_count = s.execution_count
          ∧ (run cfg s c).2.1.success_count = s.success_count)
    ∧ (∀ (α : Type) (cfg : ToolConfig) (s : ToolState α) (c : RunCall α),
        c.paramsValid = true → (checkRateLimit cfg s c.start).1 = true →
        ((getFromCache cfg (checkRateLimit cfg s c.start).2 c.key c.start).1).isSome →
        (run cfg s c).2.1.execution_count = s.execution_count
          ∧ (run cfg s c).2.1.success_count = s.success_count
          ∧ (run cfg s c).2.1.failure_count = s.failure_count) := by
  have hpres : ∀ (α : Type) (cfg : ToolConfig) (s : ToolState α) (c : RunCall α),
      CounterInv s → CounterInv ((run cfg s c).2.1) := by
    intro α cfg s c hinv
    obtain ⟨h1, h2⟩ := hinv
    rcases run_counter_deltas cfg s c with ⟨e1, e2, e3⟩ | ⟨e1, e2, e3⟩ | ⟨e1, e2, e3⟩ | ⟨e1, e2, e3⟩ <;>
      exact ⟨by omega, by omega⟩
  refine ⟨hpres, ?_, ?_, ?_, ?_⟩
  · intro α cfg calls
    have hgen : ∀ (s : ToolState α), CounterInv s → CounterInv (runTrace cfg s calls) := by
      induction calls with
      | nil => intro s hs; exact hs
      | cons c cs ih =>
        intro s hs
        exact ih _ (hpres α cfg s c hs)
    exact hgen _ ⟨le_refl 0, le_refl 0⟩
  · intro α cfg s c hv hrl
    rcases hck : checkRateLimit cfg s c.start with ⟨pass, s1⟩
    rw [hck] at hrl
    cases pass
    case true => exact absurd hrl (by simp)
    case false =>
      obtain ⟨e1, e2, e3, _, _⟩ := checkRateLimit_counters cfg s c.start
      rw [hck] at e1 e2 e3
      simp only [] at e1 e2 e3
      unfold run
      rw [if_neg (by simp [hv]), hck]
      simp only []
      exact ⟨by show s1.failure_count + 1 = s.failure_count + 1; omega,
             by show s1.execution_count = s.execution_count; omega,
             by show s1.success_count = s.success_count; omega⟩
  · intro α cfg s c hv hrl hmiss hb
    rcases hck : checkRateLimit cfg s c.start with ⟨pass, s1⟩
    rw [hck] at hrl hmiss
    cases pass
    case false => exact absurd hrl (by simp)
    case true =>
      obtain ⟨e1, e2, e3, _, _⟩ := checkRateLimit_counters cfg s c.start
      rw [hck] at e1 e2 e3
      simp only [] at e1 e2 e3
      rcases hgf : getFromCache cfg s1 c.key c.start with ⟨res, s2⟩
      rw [hgf] at hmiss
      simp only [] at hmiss
      subst hmiss
      obtain ⟨f1, f2, f3⟩ := getFromCache_counters cfg s1 c.key c.start
      rw [hgf] at f1 f2 f3
      simp only [] at f1 f2 f3
      unfold run
      rw [if_neg (by simp [hv]), hck]
      simp only []
      rw [hgf, hb]
      simp only []
      exact ⟨by show s2.failure_count + 1 = s.failure_count + 1; omega,
             by show s2.execution_count = s.execution_count; omega,
             by show s2.success_count = s.success_count; omega⟩
  · intro α cfg s c hv hrl hsome
    rcases hck : checkRateLimit cfg s c.start with ⟨pass, s1⟩
    rw [hck] at hrl hsome
    cases pass
    case false => exact absurd hrl (by simp)
    case true =>
      obtain ⟨e1, e2, e3, _, _⟩ := checkRateLimit_counters cfg s c.start
      rw [hck] at e1 e2 e3
      simp only [] at e1 e2 e3
      rcases hgf : getFromCache cfg s1 c.key c.start with ⟨res, s2⟩
      rw [hgf] at hsome
      simp only [] at hsome
      obtain ⟨cached, hres⟩ := Option.isSome_iff_exists.mp hsome
      subst hres
      obtain ⟨f1, f2, f3⟩ := getFromCache_counters cfg s1 c.key c.start
      rw [hgf] at f1 f2 f3
      simp only [] at f1 f2 f3
      unfold run
      rw [if_neg (by simp [hv]), hck]
      simp only []
      rw [hgf]
      simp only []
      exact ⟨by omega, by omega, by omega⟩

/-- A run call that will be rejected by a rate limiter with limit 0. -/
def c10CfgNoBudget : ToolConfig :=
  { rate_limit_per_minute := 0, cache_enabled := true, cache_ttl_seconds := 300 }

/-- A cached state for the cache-hit witness: the key "k" is fresh at t=0. -/
def c10HitState : ToolState Nat :=
  { cache := [("k", c3Res)], cache_timestamps := [("k", 0)],
    execution_count := 3, success_count := 2, failure_count := 1,
    total_execution_time := 5, rate_limit_timestamps := [] }

/-- Witness for C10 at concrete inputs. -/
theorem C10_tool_counter_invariant_witness :
    CounterInv ((run c3Cfg (initialToolState Nat) c3Call1).2.1)
    ∧ CounterInv (runTrace c3Cfg (initialToolState Nat) [c3Call1, c3Call2, c3Call3])
    ∧ ((run c10CfgNoBudget (initialToolState Nat) c3Call1).2.1.failure_count
          = (initialToolState Nat).failure_count + 1
        ∧ (run c10CfgNoBudget (initialToolState Nat) c3Call1).2.1.execution_count
          = (initialToolState Nat).execution_count)
    ∧ ((run c3Cfg (initialToolState Nat) c3Call2).2.1.failure_count
          = (initialToolState Nat).failure_count + 1
        ∧ (run c3Cfg (initialToolState Nat) c3Call2).2.1.execution_count
          = (initialToolState Nat).execution_count)
    ∧ ((run c3Cfg c10HitState c3Call1).2.1.execution_count = c10HitState.execution_count
        ∧ (run c3Cfg c10HitState c3Call1).2.1.success_count = c10HitState.success_count
        ∧ (run c3Cfg c10HitState c3Call1).2.1.failure_count = c10HitState.failure_count) := by
  refine ⟨?_, ?_, ?_, ?_, ?_⟩
  · exact C10_tool_counter_invariant.1 Nat c3Cfg (initialToolState Nat) c3Call1
      ⟨by decide, by decide⟩
  · exact C10_tool_counter_invariant.2.1 Nat c3Cfg [c3Call1, c3Call2, c3Call3]
  · obtain ⟨a, b, _⟩ := C10_tool_counter_invariant.2.2.1 Nat c10CfgNoBudget
      (initialToolState Nat) c3Call1 (by decide) (by decide)
    exact ⟨a, b⟩
  · obtain ⟨a, b, _⟩ := C10_tool_counter_invariant.2.2.2.1 Nat c3Cfg
      (initialToolState Nat) c3Call2 (by decide) (by decide) (by decide) (by decide)
    exact ⟨a, b⟩
  · exact C10_tool_counter_invariant.2.2.2.2 Nat c3Cfg c10HitState c3Call1
      (by decide) (by decide) (by decide)

/-! ## Deterministic pseudo-embedding (src/ai/vector_db_handler.py)

`generate_embedding` hashes the text with md5, seeds numpy's generator with
`int(hash[i % len(hash)], 16) + i` for each of 768 dimensions, draws one
standard-normal sample per dimension, L2-normalizes (guarded by
`norm > 0`), caches and returns.  The two third-party primitives — the
seeded normal draw (a fixed deterministic function of the seed) and the
md5 hex digest (a fixed digit sequence per text) — are abstracted as
function parameters. -/

/-- The 768 raw draws: dimension `i` is seeded with
`int(text_hash[i % len(text_hash)], 16) + i`. -/
def rawEmbedding (normalDraw : ℕ → ℝ) (md5hexDigits : String → List ℕ)
    (t : String) : List ℝ :=
  (List.range 768).map (fun i =>
    normalDraw ((md5hexDigits t).getD (i % (md5hexDigits t).length) 0 + i))

/-- Sum of squares of a vector. -/
def sumSq (l : List ℝ) : ℝ := (l.map (fun x => x ^ 2)).sum

/-- `np.linalg.norm`: the L2 norm. -/
noncomputable def l2norm (l : List ℝ) : ℝ := Real.sqrt (sumSq l)

/-- `VectorDBHandler.generate_embedding` without the cache: draw, then
L2-normalize when the norm is positive. -/
noncomputable def generate_embedding (normalDraw : ℕ → ℝ)
    (md5hexDigits : String → List ℕ) (t : String) : List ℝ :=
  let e := rawEmbedding normalDraw md5hexDigits t
  let norm := l2norm e
  if 0 < norm then e.map (fun x => x / norm) else e

/-- `generate_embedding` with its `embedding_cache` dict threaded. -/
noncomputable def generateEmbeddingCached (normalDraw : ℕ → ℝ)
    (md5hexDigits : String → List ℕ) (cache : List (String × List ℝ))
    (t : String) : List ℝ × List (String × List ℝ) :=
  match dictGet cache t with
  | some v => (v, cache)
  | none =>
    let e := generate_embedding normalDraw md5hexDigits t
    (e, dictSet cache t e)

lemma sumSq_nonneg (l : List ℝ) : 0 ≤ sumSq l := by
  induction l with
  | nil => simp [sumSq]
  | cons x xs ih =>
    simp only [sumSq, List.map_cons, List.sum_cons]
    have hx : 0 ≤ x ^ 2 := sq_nonneg x
    have : 0 ≤ (xs.map (fun x => x ^ 2)).sum := ih
    linarith

lemma sumSq_map_div (l : List ℝ) (n : ℝ) :
    sumSq (l.map (fun x => x / n)) = sumSq l / n ^ 2 := by
  induction l with
  | nil => simp [sumSq]
  | cons x xs ih =>
    simp only [sumSq, List.map_cons, List.sum_cons] at ih ⊢
    rw [ih, div_pow, div_add_div_same]

/-- C6: the embedding is a deterministic function of the text (a second
call through the cache returns the vector of the first), has exactly 768
components, and on the normalized path (positive raw norm) has L2 norm
exactly 1. -/
theorem C6_embedding_deterministic_unit_norm (normalDraw : ℕ → ℝ)
    (md5hexDigits : String → List ℕ) :
    (∀ (cache : List (String × List ℝ)) (t : String),
       (generateEmbeddingCached normalDraw md5hexDigits
          (generateEmbeddingCached normalDraw md5hexDigits cache t).2 t).1
         = (generateEmbeddingCached normalDraw md5hexDigits cache t).1)
    ∧ (∀ t : String, (generate_embedding normalDraw md5hexDigits t).length = 768)
    ∧ (∀ t : String, 0 < l2norm (rawEmbedding normalDraw md5hexDigits t) →
        l2norm (generate_embedding normalDraw md5hexDigits t) = 1) := by
  refine ⟨?_, ?_, ?_⟩
  · intro cache t
    unfold generateEmbeddingCached
    rcases hc : dictGet cache t with _ | v
    · simp only []
      rw [dictGet_dictSet_self]
    · simp only []
      rw [hc]
  · intro t
    unfold generate_embedding
    simp only []
    split <;> simp [rawEmbedding]
  · intro t hpos
    have hsq : 0 < sumSq (rawEmbedding normalDraw md5hexDigits t) := by
      have := Real.sqrt_pos.mp hpos
      exact this
    unfold generate_embedding
    simp only []
    rw [if_pos hpos]
    unfold l2norm
    rw [sumSq_map_div]
    rw [Real.sq_sqrt (sumSq_nonneg _)]
    rw [div_self (ne_of_gt hsq)]
    exact Real.sqrt_one

/-- Witness for C6 with the constant draw `1` and digit list `[0]`: the
second cached call returns the first vector, the vector has 768 entries,
and the normalized vector has norm exactly 1. -/
theorem C6_embedding_deterministic_unit_norm_witness :
    ((generateEmbeddingCached (fun _ => 1) (fun _ => [0])
        (generateEmbeddingCached (fun _ => 1) (fun _ => [0]) [] "hello").2 "hello").1
      = (generateEmbeddingCached (fun _ => 1) (fun _ => [0]) [] "hello").1)
    ∧ (generate_embedding (fun _ => 1) (fun _ => [0]) "hello").length = 768
    ∧ l2norm (generate_embedding (fun _ => 1) (fun _ => [0]) "hello") = 1 := by
  refine ⟨?_, ?_, ?_⟩
  · exact (C6_embedding_deterministic_unit_norm (fun _ => 1) (fun _ => [0])).1 [] "hello"
  · exact (C6_embedding_deterministic_unit_norm (fun _ => 1) (fun _ => [0])).2.1 "hello"
  · refine (C6_embedding_deterministic_unit_norm (fun _ => 1) (fun _ => [0])).2.2 "hello" ?_
    unfold l2norm
    refine Real.sqrt_pos.mpr ?_
    have h1 : rawEmbedding (fun _ => 1) (fun _ => [0]) "hello"
        = List.replicate 768 (1 : ℝ) := by
      unfold rawEmbedding
      have : (List.range 768).map (fun _ : ℕ => (1 : ℝ))
          = List.replicate (List.range 768).length 1 := List.map_const _ _
      simpa using this
    rw [h1]
    have h2 : sumSq (List.replicate 768 (1 : ℝ)) = 768 := by
      unfold sumSq
      rw [List.map_replicate, List.sum_replicate]
      norm_num
    rw [h2]
    norm_num

/-! ## Correctness of `get_execution_order` and the cycle detector

These lemmas back claims C1 and C9: the Kahn level computation emits a
partition of the step ids with dependencies in strictly earlier levels on
acyclic inputs, emits no step that transitively requires a cycle, and the
DFS of `_has_circular_dependency` reports every cycle. -/

/-- The dependency edge of the workflow's resolved graph: `x` depends on
`y` when the step found for id `x` lists `y`.  This is exactly the graph
the DFS walks. -/
def stepEdge (steps : List WorkflowStep) (x y : String) : Prop :=
  ∃ s, getStepL steps x = some s ∧ y ∈ s.dependencies

lemma keysOf_aux_mem (l : List String) :
    ∀ (acc : List String) (x : String),
      (x ∈ l.foldl (fun acc k => if k ∈ acc then acc else acc ++ [k]) acc
        ↔ x ∈ acc ∨ x ∈ l) := by
  induction l with
  | nil => intro acc x; simp
  | cons a t ih =>
    intro acc x
    simp only [List.foldl_cons]
    by_cases ha : a ∈ acc
    · rw [if_pos ha, ih]
      simp only [List.mem_cons]
      constructor
      · rintro (h | h)
        · exact Or.inl h
        · exact Or.inr (Or.inr h)
      · rintro (h | h | h)
        · exact Or.inl h
        · exact Or.inl (h ▸ ha)
        · exact Or.inr h
    · rw [if_neg ha, ih]
      simp only [List.mem_append, List.mem_cons, List.mem_singleton]
      tauto

lemma keysOf_mem (l : List String) (x : String) : x ∈ keysOf l ↔ x ∈ l := by
  unfold keysOf
  rw [keysOf_aux_mem]
  simp

lemma keysOf_aux_nodup (l : List String) :
    ∀ acc : List String, acc.Nodup →
      (l.foldl (fun acc k => if k ∈ acc then acc else acc ++ [k]) acc).Nodup := by
  induction l with
  | nil => intro acc h; simpa using h
  | cons a t ih =>
    intro acc h
    simp only [List.foldl_cons]
    by_cases ha : a ∈ acc
    · rw [if_pos ha]
      exact ih acc h
    · rw [if_neg ha]
      refine ih _ ?_
      simp [List.nodup_append, h, ha]

lemma keysOf_nodup (l : List String) : (keysOf l).Nodup :=
  keysOf_aux_nodup l [] List.nodup_nil

lemma flatMap_congrOn {l : List String} {f g : String → List String}
    (h : ∀ x ∈ l, f x = g x) : l.flatMap f = l.flatMap g := by
  induction l with
  | nil => rfl
  | cons a t ih =>
    rw [List.flatMap_cons, List.flatMap_cons, h a (List.mem_cons_self a t),
      ih (fun x hx => h x (List.mem_cons_of_mem a hx))]

lemma count_flatMap_update (ids : List String) (hnd : ids.Nodup) (u : String)
    (hu : u ∈ ids) (g : String → List String) (y x : String) :
    (ids.flatMap (fun z => if z = u then g u ++ [y] else g z)).count x
      = (ids.flatMap g).count x + (if x = y then 1 else 0) := by
  obtain ⟨l1, l2, rfl⟩ := List.append_of_mem hu
  have hnd2 := hnd
  rw [List.nodup_append] at hnd2
  obtain ⟨h1, h2, hdisj⟩ := hnd2
  have hu1 : u ∉ l1 := fun hc => hdisj hc (List.mem_cons_self u l2)
  have hu2 : u ∉ l2 := (List.nodup_cons.mp h2).1
  have e1 : l1.flatMap (fun z => if z = u then g u ++ [y] else g z) = l1.flatMap g :=
    flatMap_congrOn (fun z hz => by
      rw [if_neg]
      intro he
      exact hu1 (he ▸ hz))
  have e2 : l2.flatMap (fun z => if z = u then g u ++ [y] else g z) = l2.flatMap g :=
    flatMap_congrOn (fun z hz => by
      rw [if_neg]
      intro he
      exact hu2 (he ▸ hz))
  rw [List.flatMap_append, List.flatMap_cons, List.flatMap_append, List.flatMap_cons,
    e1, e2, if_pos rfl]
  simp only [List.count_append]
  have hcy : List.count x [y] = if x = y then 1 else 0 := by
    by_cases hxy : x = y
    · simp [hxy]
    · simp [hxy, Ne.symm hxy]
  rw [hcy]
  omega

lemma addEdge_fold_graph (ids : List String) :
    ∀ (es : List (String × String)) (g0 : String → List String) (d0 : String → Int)
      (u x : String),
      (x ∈ (es.foldl (addEdge ids) (g0, d0)).1 u
        ↔ x ∈ g0 u ∨ (u ∈ ids ∧ (u, x) ∈ es)) := by
  intro es
  induction es with
  | nil => intro g0 d0 u x; simp
  | cons e es ih =>
    intro g0 d0 u x
    obtain ⟨e1, e2⟩ := e
    simp only [List.foldl_cons]
    by_cases he : e1 ∈ ids
    · rw [show addEdge ids (g0, d0) (e1, e2)
          = ((fun z => if z = e1 then g0 e1 ++ [e2] else g0 z),
             (fun z => if z = e2 then d0 e2 + 1 else d0 z)) from by
        unfold addEdge
        rw [if_pos he]]
      rw [ih]
      by_cases hu : u = e1
      · subst hu
        rw [if_pos rfl]
        simp only [List.mem_append, List.mem_singleton, List.mem_cons,
          Prod.mk.injEq, he, true_and]
        tauto
      · simp only [if_neg hu, List.mem_cons, Prod.mk.injEq]
        tauto
    · rw [show addEdge ids (g0, d0) (e1, e2) = (g0, d0) from by
        unfold addEdge
        rw [if_neg he]]
      rw [ih]
      simp only [List.mem_cons, Prod.mk.injEq]
      constructor
      · rintro (h | ⟨hi, h⟩)
        · exact Or.inl h
        · exact Or.inr ⟨hi, Or.inr h⟩
      · rintro (h | ⟨hi, (⟨he1, -⟩ | h)⟩)
        · exact Or.inl h
        · exact absurd (he1 ▸ hi) he
        · exact Or.inr ⟨hi, h⟩

lemma addEdge_fold_deg (ids : List String) (hnd : ids.Nodup) :
    ∀ (es : List (String × String)) (g0 : String → List String) (d0 : String → Int),
      (∀ x, d0 x = ((ids.flatMap g0).count x : ℤ)) →
      ∀ x, (es.foldl (addEdge ids) (g0, d0)).2 x
        = ((ids.flatMap (es.foldl (addEdge ids) (g0, d0)).1).count x : ℤ) := by
  intro es
  induction es with
  | nil => intro g0 d0 h0 x; exact h0 x
  | cons e es ih =>
    intro g0 d0 h0 x
    obtain ⟨e1, e2⟩ := e
    simp only [List.foldl_cons]
    by_cases he : e1 ∈ ids
    · rw [show addEdge ids (g0, d0) (e1, e2)
          = ((fun z => if z = e1 then g0 e1 ++ [e2] else g0 z),
             (fun z => if z = e2 then d0 e2 + 1 else d0 z)) from by
        unfold addEdge
        rw [if_pos he]]
      refine ih _ _ ?_ x
      intro z
      rw [count_flatMap_update ids hnd e1 he g0 e2 z]
      have h2 := h0 z
      have h3 := h0 e2
      split_ifs with hz
      · subst hz
        rw [h3]
        push_cast
        ring
      · rw [h2]
        push_cast
        ring
    · rw [show addEdge ids (g0, d0) (e1, e2) = (g0, d0) from by
        unfold addEdge
        rw [if_neg he]]
      exact ih _ _ h0 x

lemma mem_edgeList (steps : List WorkflowStep) (u x : String) :
    (u, x) ∈ edgeList steps
      ↔ ∃ s ∈ steps, s.step_id = x ∧ u ∈ s.dependencies := by
  unfold edgeList
  simp only [List.mem_flatMap, List.mem_map, Prod.mk.injEq]
  constructor
  · rintro ⟨s, hs, d, hd, rfl, rfl⟩
    exact ⟨s, hs, rfl, hd⟩
  · rintro ⟨s, hs, rfl, hd⟩
    exact ⟨s, hs, u, hd, rfl, rfl⟩

lemma buildGraphDeg_graph (steps : List WorkflowStep) (u x : String) :
    (x ∈ (buildGraphDeg steps).1 u
      ↔ u ∈ keysOf (steps.map (·.step_id))
          ∧ ∃ s ∈ steps, s.step_id = x ∧ u ∈ s.dependencies) := by
  unfold buildGraphDeg
  rw [addEdge_fold_graph, mem_edgeList]
  simp

lemma buildGraphDeg_deg (steps : List WorkflowStep) (x : String) :
    (buildGraphDeg steps).2 x
      = (((keysOf (steps.map (·.step_id))).flatMap (buildGraphDeg steps).1).count x : ℤ) := by
  unfold buildGraphDeg
  refine addEdge_fold_deg _ (keysOf_nodup _) (edgeList steps) _ _ ?_ x
  intro z
  have : (keysOf (steps.map (·.step_id))).flatMap (fun _ => ([] : List String)) = [] := by
    rw [List.flatMap_eq_nil_iff]
    intro a ha
    rfl
  rw [this]
  rfl

lemma buildGraphDeg_targets (steps : List WorkflowStep) (u x : String)
    (h : x ∈ (buildGraphDeg steps).1 u) : x ∈ keysOf (steps.map (·.step_id)) := by
  obtain ⟨-, s, hs, rfl, -⟩ := (buildGraphDeg_graph steps u x).mp h
  rw [keysOf_mem]
  exact List.mem_map.mpr ⟨s, hs, rfl⟩

lemma buildGraphDeg_dom (steps : List WorkflowStep) (u : String)
    (h : u ∉ keysOf (steps.map (·.step_id))) : (buildGraphDeg steps).1 u = [] := by
  rw [List.eq_nil_iff_forall_not_mem]
  intro x hx
  exact h ((buildGraphDeg_graph steps u x).mp hx).1

lemma stepFold_deg :
    ∀ (ns : List String) (d : String → Int) (q0 : List String) (x : String),
      ((ns.foldl stepNeighbor (d, q0)).1) x = d x - ns.count x := by
  intro ns
  induction ns with
  | nil => intro d q0 x; simp
  | cons n ns ih =>
    intro d q0 x
    simp only [List.foldl_cons]
    rw [show stepNeighbor (d, q0) n
        = ((fun z => if z = n then d n - 1 else d z),
           if d n - 1 = 0 then q0 ++ [n] else q0) from rfl]
    rw [ih, List.count_cons]
    by_cases hx : x = n
    · subst hx
      rw [if_pos (rfl : x = x)]
      simp only [beq_self_eq_true, if_true]
      push_cast
      ring
    · rw [if_neg hx]
      have hnx : (n == x) = false := by
        simp only [beq_eq_false_iff_ne, ne_eq]
        exact fun h => hx h.symm
      rw [hnx]
      simp only [Bool.false_eq_true, if_false]
      push_cast
      ring

lemma stepFold_queue_count :
    ∀ (ns : List String) (d : String → Int) (q0 : List String) (x : String),
      ((ns.foldl stepNeighbor (d, q0)).2).count x
        = q0.count x + (if 0 < d x ∧ d x ≤ (ns.count x : ℤ) then 1 else 0) := by
  intro ns
  induction ns with
  | nil =>
    intro d q0 x
    simp only [List.foldl_nil, List.count_nil]
    rw [if_neg (by omega)]
    omega
  | cons n ns ih =>
    intro d q0 x
    simp only [List.foldl_cons]
    rw [show stepNeighbor (d, q0) n
        = ((fun z => if z = n then d n - 1 else d z),
           if d n - 1 = 0 then q0 ++ [n] else q0) from rfl]
    rw [ih, List.count_cons]
    by_cases hx : x = n
    · subst hx
      rw [if_pos (rfl : x = x)]
      simp only [beq_self_eq_true, if_true]
      by_cases hdn : d x - 1 = 0
      · rw [if_pos hdn, List.count_append, List.count_singleton]
        have h1 : ¬ (0 < d x - 1 ∧ d x - 1 ≤ ((ns.count x : ℕ) : ℤ)) := by
          rintro ⟨ha, -⟩
          omega
        have h2 : 0 < d x ∧ d x ≤ ((ns.count x + 1 : ℕ) : ℤ) := by
          constructor <;> [omega; (push_cast; omega)]
        rw [if_neg h1, if_pos h2]
        simp
      · rw [if_neg hdn]
        by_cases hc1 : 0 < d x - 1 ∧ d x - 1 ≤ ((ns.count x : ℕ) : ℤ)
        · have h2 : 0 < d x ∧ d x ≤ ((ns.count x + 1 : ℕ) : ℤ) := by
            obtain ⟨ha, hb⟩ := hc1
            constructor <;> [omega; (push_cast; omega)]
          rw [if_pos hc1, if_pos h2]
        · have h2 : ¬ (0 < d x ∧ d x ≤ ((ns.count x + 1 : ℕ) : ℤ)) := by
            rintro ⟨ha, hb⟩
            refine hc1 ⟨by omega, ?_⟩
            push_cast at hb ⊢
            omega
          rw [if_neg hc1, if_neg h2]
    · rw [if_neg hx]
      have hnx : (n == x) = false := by
        simp only [beq_eq_false_iff_ne, ne_eq]
        exact fun h => hx h.symm
      rw [hnx]
      simp only [Bool.false_eq_true, if_false]
      have hcq : List.count x (if d n - 1 = 0 then q0 ++ [n] else q0)
          = List.count x q0 := by
        split_ifs
        · rw [List.count_append]
          have h1 : List.count x [n] = 0 := by
            simp only [List.count_cons, List.count_nil]
            rw [hnx]
            simp
          omega
        · rfl
      rw [hcq]
      simp

lemma sum_map_add_distrib (l : List String) (f g : String → Nat) :
    (l.map (fun x => f x + g x)).sum = (l.map f).sum + (l.map g).sum := by
  induction l with
  | nil => simp
  | cons a t ih =>
    simp only [List.map_cons, List.sum_cons, ih]
    omega

lemma sum_indicator_eq_one {ids : List String} (hnd : ids.Nodup) {a : String}
    (ha : a ∈ ids) :
    (ids.map (fun x => if a == x then 1 else 0)).sum = 1 := by
  induction ids with
  | nil => cases ha
  | cons b t ih =>
    rw [List.nodup_cons] at hnd
    rcases List.mem_cons.mp ha with rfl | ha2
    · simp only [List.map_cons, List.sum_cons, beq_self_eq_true, if_true]
      have hz : (t.map (fun x => if a == x then 1 else 0)).sum = 0 := by
        apply List.sum_eq_zero
        intro y hy
        obtain ⟨x, hx, rfl⟩ := List.mem_map.mp hy
        have hax : (a == x) = false := by
          simp only [beq_eq_false_iff_ne, ne_eq]
          intro he
          exact hnd.1 (he ▸ hx)
        rw [hax]
        simp
      rw [hz]
    · have hba : (a == b) = false := by
        simp only [beq_eq_false_iff_ne, ne_eq]
        intro he
        exact hnd.1 (he ▸ ha2)
      simp only [List.map_cons, List.sum_cons, hba, Bool.false_eq_true, if_false]
      rw [ih hnd.2 ha2]

lemma length_eq_sum_count_over {ids : List String} (hnd : ids.Nodup) :
    ∀ (q : List String), (∀ x ∈ q, x ∈ ids) →
      (ids.map (fun x => q.count x)).sum = q.length := by
  intro q
  induction q with
  | nil =>
    intro hsub
    simp
  | cons a t ih =>
    intro hsub
    have h1 : (ids.map (fun x => (a :: t).count x)).sum
        = (ids.map (fun x => t.count x + (if a == x then 1 else 0))).sum := by
      congr 1
      apply List.map_congr_left
      intro x hx
      rw [List.count_cons]
    rw [h1, sum_map_add_distrib, ih (fun x hx => hsub x (List.mem_cons_of_mem a hx)),
      sum_indicator_eq_one hnd (hsub a (List.mem_cons_self a t))]
    simp

lemma processLevel_queue_sub {g : String → List String} {ids : List String}
    (hg : ∀ u x, x ∈ g u → x ∈ ids) (d : String → Int) (q : List String) :
    ∀ x ∈ (processLevel g q d).2, x ∈ ids := by
  intro x hx
  have hpos : 0 < ((processLevel g q d).2).count x := List.count_pos_iff.mpr hx
  rw [show (processLevel g q d).2 = ((q.flatMap g).foldl stepNeighbor (d, [])).2 from rfl,
    stepFold_queue_count] at hpos
  simp only [List.count_nil, Nat.zero_add] at hpos
  have hcond : 0 < d x ∧ d x ≤ ((q.flatMap g).count x : ℤ) := by
    by_contra hc
    rw [if_neg hc] at hpos
    exact Nat.lt_irrefl 0 hpos
  have hcnt : 0 < (q.flatMap g).count x := by
    have := hcond.1
    have := hcond.2
    omega
  obtain ⟨u, -, hxu⟩ := List.mem_flatMap.mp (List.count_pos_iff.mp hcnt)
  exact hg u x hxu

lemma processLevel_measure {g : String → List String} {ids : List String}
    (hg : ∀ u x, x ∈ g u → x ∈ ids) (hnd : ids.Nodup)
    (d : String → Int) (q : List String) :
    degSum ids (processLevel g q d).1 + ((processLevel g q d).2).length
      ≤ degSum ids d := by
  have hql := processLevel_queue_sub hg d q
  have hlen : ((processLevel g q d).2).length
      = (ids.map (fun x => ((processLevel g q d).2).count x)).sum :=
    (length_eq_sum_count_over hnd _ hql).symm
  unfold degSum
  rw [hlen, ← sum_map_add_distrib]
  apply List.sum_le_sum
  intro x hx
  rw [show (processLevel g q d).1 = ((q.flatMap g).foldl stepNeighbor (d, [])).1 from rfl,
    stepFold_deg]
  rw [show (processLevel g q d).2 = ((q.flatMap g).foldl stepNeighbor (d, [])).2 from rfl,
    stepFold_queue_count]
  simp only [List.count_nil, Nat.zero_add]
  split_ifs <;> omega

lemma kahnRun_fuel_irrel {g : String → List String} {ids : List String}
    (hg : ∀ u x, x ∈ g u → x ∈ ids) (hnd : ids.Nodup) :
    ∀ (fuel : Nat) (d : String → Int) (q : List String),
      degSum ids d + q.length < fuel →
      kahnRun g (fuel + 1) d q = kahnRun g fuel d q := by
  intro fuel
  induction fuel with
  | zero => intro d q h; omega
  | succ f ih =>
    intro d q h
    by_cases hq : q.isEmpty
    · rw [show kahnRun g (f + 1 + 1) d q = [] from by rw [kahnRun, if_pos hq],
        show kahnRun g (f + 1) d q = [] from by rw [kahnRun, if_pos hq]]
    · rw [show kahnRun g (f + 1 + 1) d q
          = q :: kahnRun g (f + 1) (processLevel g q d).1 (processLevel g q d).2 from by
        rw [kahnRun, if_neg (by simp [hq])],
        show kahnRun g (f + 1) d q
          = q :: kahnRun g f (processLevel g q d).1 (processLevel g q d).2 from by
        rw [kahnRun, if_neg (by simp [hq])]]
      congr 1
      apply ih
      have hm := processLevel_measure hg hnd d q
      have hq1 : 0 < q.length := by
        rw [List.isEmpty_iff] at hq
        exact List.length_pos.mpr hq
      omega

lemma kahnRun_fuel_stable {g : String → List String} {ids : List String}
    (hg : ∀ u x, x ∈ g u → x ∈ ids) (hnd : ids.Nodup)
    (fuel : Nat) (d : String → Int) (q : List String)
    (h : degSum ids d + q.length < fuel) :
    ∀ extra : Nat, kahnRun g (fuel + extra) d q = kahnRun g fuel d q := by
  intro extra
  induction extra with
  | zero => rfl
  | succ e ih =>
    rw [show fuel + (e + 1) = (fuel + e) + 1 from rfl,
      kahnRun_fuel_irrel hg hnd (fuel + e) d q (by omega), ih]

/-- A duplicate-free sublist-up-to-permutation of `ids` splits `ids` into itself
and the ids not in it. -/
lemma perm_split {ids E : List String} (hnd : ids.Nodup) (hEnd : E.Nodup)
    (hsub : ∀ x ∈ E, x ∈ ids) :
    List.Perm ids (E ++ ids.filter (fun u => !(decide (u ∈ E)))) := by
  have h1 : List.Perm (ids.filter (fun u => decide (u ∈ E))) E := by
    apply List.perm_iff_count.mpr
    intro a
    by_cases ha : a ∈ E
    · rw [List.count_eq_one_of_mem (hnd.filter _)
        (List.mem_filter.mpr ⟨hsub a ha, by simpa using ha⟩),
        List.count_eq_one_of_mem hEnd ha]
    · rw [List.count_eq_zero_of_not_mem (fun hc => ha (by simpa using (List.mem_filter.mp hc).2)),
        List.count_eq_zero_of_not_mem ha]
  exact ((List.filter_append_perm (fun u => decide (u ∈ E)) ids).symm).trans
    (h1.append_right _)

/-- Count of any target over the whole multigraph splits along emitted/rest. -/
lemma count_split {ids E : List String} (hnd : ids.Nodup) (hEnd : E.Nodup)
    (hsub : ∀ x ∈ E, x ∈ ids) (g : String → List String) (x : String) :
    (ids.flatMap g).count x
      = (E.flatMap g).count x
        + ((ids.filter (fun u => !(decide (u ∈ E)))).flatMap g).count x := by
  have hp := (perm_split hnd hEnd hsub).flatMap_right g
  rw [hp.count_eq x, List.flatMap_append, List.count_append]

/-- Main invariant induction for the `while queue:` loop of
`get_execution_order`.  `E` is the list of already emitted step ids (in
emission order); the four conclusions are: every emitted id is a fresh key,
no id is emitted twice, every level is nonempty and has all its in-neighbours
emitted strictly earlier, and every never-emitted key keeps a never-emitted
in-neighbour. -/
lemma kahnRun_spec {g : String → List String} {ids : List String}
    (hnd : ids.Nodup)
    (hg : ∀ u x, x ∈ g u → x ∈ ids)
    (hgdom : ∀ u, u ∉ ids → g u = []) :
    ∀ (fuel : Nat) (E : List String) (d : String → Int) (q : List String),
      (∀ x, d x = ((ids.flatMap g).count x : ℤ) - ((E.flatMap g).count x : ℤ)) →
      (∀ x, x ∈ E ++ q → x ∈ ids) →
      (E ++ q).Nodup →
      (∀ x, x ∈ E ++ q → d x = 0) →
      (∀ x, x ∈ ids → d x = 0 → x ∈ E ++ q) →
      degSum ids d + q.length < fuel →
      (∀ x, x ∈ (kahnRun g fuel d q).flatten → x ∈ ids ∧ x ∉ E)
      ∧ (E ++ (kahnRun g fuel d q).flatten).Nodup
      ∧ (∀ k lev, (kahnRun g fuel d q).get? k = some lev → lev ≠ [] ∧
          ∀ x ∈ lev, ∀ u, x ∈ g u → u ∈ E ++ ((kahnRun g fuel d q).take k).flatten)
      ∧ (∀ x, x ∈ ids → x ∉ E ++ (kahnRun g fuel d q).flatten →
          ∃ u, x ∈ g u ∧ u ∈ ids ∧ u ∉ E ++ (kahnRun g fuel d q).flatten) := by
  intro fuel
  induction fuel with
  | zero =>
    intro E d q _ _ _ _ _ hm
    exact absurd hm (Nat.not_lt_zero _)
  | succ f ih =>
    intro E d q hdeq hsub hnodup hzero hcomp hm
    have hEnd : E.Nodup := (List.nodup_append.mp hnodup).1
    have hEsub : ∀ x ∈ E, x ∈ ids := fun x hx => hsub x (List.mem_append_left q hx)
    by_cases hq : q.isEmpty
    · have hqnil : q = [] := by simpa using hq
      subst hqnil
      rw [show kahnRun g (f + 1) d [] = [] from by rw [kahnRun]; rfl]
      refine ⟨by simp, by simpa using hnodup, ?_, ?_⟩
      · intro k lev hk
        rw [show (([] : List (List String)).get? k) = none from rfl] at hk
        exact Option.noConfusion hk
      · intro x hxids hxE
        simp only [List.flatten_nil, List.append_nil] at hxE ⊢
        have hdx0 : ¬ d x = 0 := fun h0 => hxE (by simpa using hcomp x hxids h0)
        have hcsplit := count_split hnd hEnd hEsub g x
        have hdx := hdeq x
        have hrest : 0 < ((ids.filter (fun u => !(decide (u ∈ E)))).flatMap g).count x := by
          omega
        obtain ⟨u, hu, hxu⟩ := List.mem_flatMap.mp (List.count_pos_iff.mp hrest)
        rw [List.mem_filter] at hu
        exact ⟨u, hxu, hu.1, by simpa using hu.2⟩
    · have hqne : q ≠ [] := by simpa using hq
      rw [show kahnRun g (f + 1) d q
          = q :: kahnRun g f (processLevel g q d).1 (processLevel g q d).2 from by
        rw [kahnRun, if_neg (by simp [hq])]]
      -- pointwise formulas for the next in-degree map and next queue
      have hdform : ∀ x, (processLevel g q d).1 x = d x - ((q.flatMap g).count x : ℤ) :=
        fun x => stepFold_deg (q.flatMap g) d [] x
      have hq2count : ∀ x, ((processLevel g q d).2).count x
          = (if 0 < d x ∧ d x ≤ ((q.flatMap g).count x : ℤ) then 1 else 0) := by
        intro x
        have := stepFold_queue_count (q.flatMap g) d [] x
        simpa using this
      have hq2mem : ∀ x, x ∈ (processLevel g q d).2
          ↔ (0 < d x ∧ d x ≤ ((q.flatMap g).count x : ℤ)) := by
        intro x
        rw [← List.count_pos_iff, hq2count x]
        split_ifs with hc
        · simpa using hc
        · simpa using hc
      have hq2nd : ((processLevel g q d).2).Nodup := by
        rw [List.nodup_iff_count_le_one]
        intro x
        rw [hq2count x]
        split_ifs <;> omega
      -- the (E ++ q)-relative counts
      have hEqnd : (E ++ q).Nodup := hnodup
      have hEqsub : ∀ x ∈ E ++ q, x ∈ ids := hsub
      have hble : ∀ x, ((E ++ q).flatMap g).count x ≤ (ids.flatMap g).count x := by
        intro x
        have := count_split hnd hEqnd hEqsub g x
        omega
      -- invariants at the next iteration
      have hdeq2 : ∀ x, (processLevel g q d).1 x
          = ((ids.flatMap g).count x : ℤ) - (((E ++ q).flatMap g).count x : ℤ) := by
        intro x
        rw [hdform x, hdeq x, List.flatMap_append, List.count_append]
        push_cast
        ring
      have hsub2 : ∀ x, x ∈ (E ++ q) ++ (processLevel g q d).2 → x ∈ ids := by
        intro x hx
        rcases List.mem_append.mp hx with hx | hx
        · exact hsub x hx
        · exact processLevel_queue_sub hg d q x hx
      have hdisj : ∀ x ∈ (processLevel g q d).2, x ∉ E ++ q := by
        intro x hx hxEq
        have h1 := (hq2mem x).mp hx
        have h2 := hzero x hxEq
        omega
      have hnodup2 : ((E ++ q) ++ (processLevel g q d).2).Nodup :=
        hnodup.append hq2nd (fun a ha hb => hdisj a hb ha)
      have hzero2 : ∀ x, x ∈ (E ++ q) ++ (processLevel g q d).2 →
          (processLevel g q d).1 x = 0 := by
        intro x hx
        have hcnt : ((E ++ q).flatMap g).count x
            = (E.flatMap g).count x + (q.flatMap g).count x := by
          rw [List.flatMap_append, List.count_append]
        have hb := hble x
        have hdx := hdeq x
        rw [hdform x]
        rcases List.mem_append.mp hx with hx | hx
        · have h0 := hzero x hx
          omega
        · have h1 := (hq2mem x).mp hx
          omega
      have hcomp2 : ∀ x, x ∈ ids → (processLevel g q d).1 x = 0 →
          x ∈ (E ++ q) ++ (processLevel g q d).2 := by
        intro x hxids h0
        rw [hdform x] at h0
        by_cases hdx0 : d x = 0
        · exact List.mem_append_left _ (hcomp x hxids hdx0)
        · refine List.mem_append_right _ ((hq2mem x).mpr ⟨?_, ?_⟩)
          · have hcnt : ((E ++ q).flatMap g).count x
                = (E.flatMap g).count x + (q.flatMap g).count x := by
              rw [List.flatMap_append, List.count_append]
            have hb := hble x
            have hdx := hdeq x
            omega
          · omega
      have hql : 0 < q.length := List.length_pos.mpr hqne
      have hmeas := processLevel_measure hg hnd d q
      have hm2 : degSum ids (processLevel g q d).1 + ((processLevel g q d).2).length < f := by
        omega
      obtain ⟨c1, c2, c3, c4⟩ := ih (E ++ q) (processLevel g q d).1 (processLevel g q d).2
        hdeq2 hsub2 hnodup2 hzero2 hcomp2 hm2
      have hqsub : ∀ x ∈ q, x ∈ ids := fun x hx => hsub x (List.mem_append_right E hx)
      have hqE : ∀ x ∈ q, x ∉ E :=
        fun x hx => (List.disjoint_of_nodup_append hnodup).symm hx
      refine ⟨?_, ?_, ?_, ?_⟩
      · -- c1: members of the flattened output are fresh keys
        intro x hx
        rw [List.flatten_cons] at hx
        rcases List.mem_append.mp hx with hx | hx
        · exact ⟨hqsub x hx, hqE x hx⟩
        · obtain ⟨hx1, hx2⟩ := c1 x hx
          exact ⟨hx1, fun hc => hx2 (List.mem_append_left q hc)⟩
      · -- c2: no id is emitted twice
        rw [List.flatten_cons, ← List.append_assoc]
        exact c2
      · -- c3: every level is nonempty with in-neighbours strictly earlier
        intro k lev hk
        match k with
        | 0 =>
          rw [show ((q :: kahnRun g f (processLevel g q d).1 (processLevel g q d).2).get? 0)
              = some q from rfl] at hk
          obtain rfl : q = lev := Option.some.inj hk
          refine ⟨hqne, ?_⟩
          intro x hx u hxu
          simp only [List.take_zero, List.flatten_nil, List.append_nil]
          have huids : u ∈ ids := by
            by_contra huc
            rw [hgdom u huc] at hxu
            exact absurd hxu (List.not_mem_nil x)
          have hdx : d x = 0 := hzero x (List.mem_append_right E hx)
          have hcsplit := count_split hnd hEnd hEsub g x
          have hdeqx := hdeq x
          have hrest0 : ((ids.filter (fun u => !(decide (u ∈ E)))).flatMap g).count x = 0 := by
            omega
          by_contra huE
          have humem : u ∈ ids.filter (fun u => !(decide (u ∈ E))) :=
            List.mem_filter.mpr ⟨huids, by simpa using huE⟩
          have : x ∈ (ids.filter (fun u => !(decide (u ∈ E)))).flatMap g :=
            List.mem_flatMap.mpr ⟨u, humem, hxu⟩
          rw [← List.count_pos_iff] at this
          omega
        | j + 1 =>
          rw [show ((q :: kahnRun g f (processLevel g q d).1 (processLevel g q d).2).get? (j + 1))
              = (kahnRun g f (processLevel g q d).1 (processLevel g q d).2).get? j from rfl] at hk
          obtain ⟨hne, hc3⟩ := c3 j lev hk
          refine ⟨hne, ?_⟩
          intro x hx u hxu
          have := hc3 x hx u hxu
          rw [List.take_succ_cons, List.flatten_cons, ← List.append_assoc]
          exact this
      · -- c4: a never-emitted key keeps a never-emitted in-neighbour
        intro x hxids hxE
        rw [List.flatten_cons, ← List.append_assoc] at hxE
        obtain ⟨u, hxu, huids, huE⟩ := c4 x hxids hxE
        refine ⟨u, hxu, huids, ?_⟩
        rwa [List.flatten_cons, ← List.append_assoc]

/-- Unconditional properties of `get_execution_order`: the levels consist of
distinct step-id keys, every level is nonempty with all in-neighbours in
strictly earlier levels, and a key missing from the output has an in-neighbour
that is also missing. -/
lemma get_execution_order_spec (w : Workflow) :
    (∀ x, x ∈ w.get_execution_order.flatten → x ∈ keysOf (w.steps.map (·.step_id)))
    ∧ w.get_execution_order.flatten.Nodup
    ∧ (∀ k lev, w.get_execution_order.get? k = some lev → lev ≠ [] ∧
        ∀ x ∈ lev, ∀ u, x ∈ (buildGraphDeg w.steps).1 u →
          u ∈ (w.get_execution_order.take k).flatten)
    ∧ (∀ x, x ∈ keysOf (w.steps.map (·.step_id)) → x ∉ w.get_execution_order.flatten →
        ∃ u, x ∈ (buildGraphDeg w.steps).1 u ∧ u ∈ keysOf (w.steps.map (·.step_id))
          ∧ u ∉ w.get_execution_order.flatten) := by
  have he : w.get_execution_order
      = kahnRun (buildGraphDeg w.steps).1
          (degSum (keysOf (w.steps.map (·.step_id))) (buildGraphDeg w.steps).2
            + (keysOf (w.steps.map (·.step_id))).length + 1)
          (buildGraphDeg w.steps).2
          ((keysOf (w.steps.map (·.step_id))).filter
            (fun x => (buildGraphDeg w.steps).2 x = 0)) := rfl
  have hnd := keysOf_nodup (w.steps.map (·.step_id))
  have hg : ∀ u x, x ∈ (buildGraphDeg w.steps).1 u → x ∈ keysOf (w.steps.map (·.step_id)) :=
    fun u x hx => buildGraphDeg_targets w.steps u x hx
  have hgdom : ∀ u, u ∉ keysOf (w.steps.map (·.step_id)) → (buildGraphDeg w.steps).1 u = [] :=
    fun u hu => buildGraphDeg_dom w.steps u hu
  have hdeq : ∀ x, (buildGraphDeg w.steps).2 x
      = (((keysOf (w.steps.map (·.step_id))).flatMap (buildGraphDeg w.steps).1).count x : ℤ)
        - ((([] : List String).flatMap (buildGraphDeg w.steps).1).count x : ℤ) := by
    intro x
    rw [buildGraphDeg_deg]
    simp
  have hsub : ∀ x, x ∈ ([] : List String)
      ++ ((keysOf (w.steps.map (·.step_id))).filter
        (fun x => (buildGraphDeg w.steps).2 x = 0)) → x ∈ keysOf (w.steps.map (·.step_id)) := by
    intro x hx
    simp only [List.nil_append, List.mem_filter] at hx
    exact hx.1
  have hnodup : (([] : List String)
      ++ ((keysOf (w.steps.map (·.step_id))).filter
        (fun x => (buildGraphDeg w.steps).2 x = 0))).Nodup := by
    simp only [List.nil_append]
    exact hnd.filter _
  have hzero : ∀ x, x ∈ ([] : List String)
      ++ ((keysOf (w.steps.map (·.step_id))).filter
        (fun x => (buildGraphDeg w.steps).2 x = 0)) → (buildGraphDeg w.steps).2 x = 0 := by
    intro x hx
    simp only [List.nil_append, List.mem_filter] at hx
    exact of_decide_eq_true hx.2
  have hcomp : ∀ x, x ∈ keysOf (w.steps.map (·.step_id)) →
      (buildGraphDeg w.steps).2 x = 0 → x ∈ ([] : List String)
      ++ ((keysOf (w.steps.map (·.step_id))).filter
        (fun x => (buildGraphDeg w.steps).2 x = 0)) := by
    intro x hx h0
    simp only [List.nil_append, List.mem_filter]
    exact ⟨hx, by simpa using h0⟩
  have hm : degSum (keysOf (w.steps.map (·.step_id))) (buildGraphDeg w.steps).2
      + ((keysOf (w.steps.map (·.step_id))).filter
          (fun x => (buildGraphDeg w.steps).2 x = 0)).length
      < degSum (keysOf (w.steps.map (·.step_id))) (buildGraphDeg w.steps).2
        + (keysOf (w.steps.map (·.step_id))).length + 1 := by
    have := List.length_filter_le (fun x => decide ((buildGraphDeg w.steps).2 x = 0))
      (keysOf (w.steps.map (·.step_id)))
    omega
  obtain ⟨c1, c2, c3, c4⟩ := kahnRun_spec hnd hg hgdom _ [] (buildGraphDeg w.steps).2
    ((keysOf (w.steps.map (·.step_id))).filter (fun x => (buildGraphDeg w.steps).2 x = 0))
    hdeq hsub hnodup hzero hcomp hm
  rw [← he] at c1 c2 c3 c4
  refine ⟨fun x hx => (c1 x hx).1, by simpa using c2, ?_, ?_⟩
  · intro k lev hk
    obtain ⟨hne, hc⟩ := c3 k lev hk
    exact ⟨hne, fun x hx u hxu => by simpa using hc x hx u hxu⟩
  · intro x hx hxf
    obtain ⟨u, h1, h2, h3⟩ := c4 x hx (by simpa using hxf)
    exact ⟨u, h1, h2, by simpa using h3⟩

/-- With duplicate-free step ids, the step found for a member id is the member
itself. -/
lemma getStepL_eq_of_nodup {steps : List WorkflowStep}
    (hnd : (steps.map (·.step_id)).Nodup) {s : WorkflowStep}
    (hs : s ∈ steps) : getStepL steps s.step_id = some s := by
  induction steps with
  | nil => exact absurd hs (List.not_mem_nil s)
  | cons a t ih =>
    rw [List.map_cons, List.nodup_cons] at hnd
    rcases List.mem_cons.mp hs with rfl | hst
    · unfold getStepL
      rw [List.find?_cons_of_pos _ (by simp)]
    · have hne : ¬ ((a.step_id == s.step_id) = true) := by
        simp only [beq_iff_eq]
        intro he
        exact hnd.1 (he ▸ List.mem_map.mpr ⟨s, hst, rfl⟩)
      unfold getStepL
      rw [show List.find? (fun s2 => s2.step_id == s.step_id) (a :: t)
          = List.find? (fun s2 => s2.step_id == s.step_id) t from
        List.find?_cons_of_neg _ hne]
      exact ih hnd.2 hst

/-- A finite set on which every element has a successor inside the set
contains a cycle. -/
lemma exists_cycle_of_succ (r : String → String → Prop) :
    ∀ S : Finset String, (∀ x ∈ S, ∃ y ∈ S, r x y) → S.Nonempty →
      ∃ z, Relation.TransGen r z z := by
  classical
  intro S
  induction S using Finset.strongInductionOn with
  | _ S ihS =>
    intro hstep hne
    obtain ⟨x, hx⟩ := hne
    by_cases hcyc : Relation.TransGen r x x
    · exact ⟨x, hcyc⟩
    · have hDsub : S.filter (fun y => Relation.TransGen r x y) ⊆ S :=
        Finset.filter_subset _ _
      have hxD : x ∉ S.filter (fun y => Relation.TransGen r x y) :=
        fun hxd => hcyc (Finset.mem_filter.mp hxd).2
      have hDss : S.filter (fun y => Relation.TransGen r x y) ⊂ S :=
        (Finset.ssubset_iff_of_subset hDsub).mpr ⟨x, hx, hxD⟩
      have hDne : (S.filter (fun y => Relation.TransGen r x y)).Nonempty := by
        obtain ⟨y, hyS, hr⟩ := hstep x hx
        exact ⟨y, Finset.mem_filter.mpr ⟨hyS, Relation.TransGen.single hr⟩⟩
      have hDstep : ∀ a ∈ S.filter (fun y => Relation.TransGen r x y),
          ∃ b ∈ S.filter (fun y => Relation.TransGen r x y), r a b := by
        intro a ha
        obtain ⟨haS, hxa⟩ := Finset.mem_filter.mp ha
        obtain ⟨b, hbS, hab⟩ := hstep a haS
        exact ⟨b, Finset.mem_filter.mpr ⟨hbS, hxa.tail hab⟩, hab⟩
      exact ihS _ hDss hDstep hDne

/-- Under acyclicity the levels cover every step-id key. -/
lemma ids_subset_flatten_of_acyclic {w : Workflow}
    (hnd : (w.steps.map (·.step_id)).Nodup)
    (hacyc : ∀ z, ¬ Relation.TransGen (stepEdge w.steps) z z) :
    ∀ x ∈ keysOf (w.steps.map (·.step_id)), x ∈ w.get_execution_order.flatten := by
  intro x0 hx0
  by_contra hx0f
  have hT : ∀ x ∈ ((keysOf (w.steps.map (·.step_id))).filter
      (fun z => !(decide (z ∈ w.get_execution_order.flatten)))).toFinset,
      ∃ y ∈ ((keysOf (w.steps.map (·.step_id))).filter
        (fun z => !(decide (z ∈ w.get_execution_order.flatten)))).toFinset,
      stepEdge w.steps x y := by
    intro x hx
    rw [List.mem_toFinset, List.mem_filter] at hx
    obtain ⟨hxids, hxnf⟩ := hx
    have hxnf2 : x ∉ w.get_execution_order.flatten := by simpa using hxnf
    obtain ⟨u, hxu, huids, hunf⟩ := (get_execution_order_spec w).2.2.2 x hxids hxnf2
    obtain ⟨-, s, hsmem, hsid, hudep⟩ := (buildGraphDeg_graph w.steps u x).mp hxu
    refine ⟨u, ?_, ?_⟩
    · rw [List.mem_toFinset, List.mem_filter]
      exact ⟨huids, by simpa using hunf⟩
    · exact ⟨s, hsid ▸ getStepL_eq_of_nodup hnd hsmem, hudep⟩
  have hne : (((keysOf (w.steps.map (·.step_id))).filter
      (fun z => !(decide (z ∈ w.get_execution_order.flatten)))).toFinset).Nonempty := by
    refine ⟨x0, ?_⟩
    rw [List.mem_toFinset, List.mem_filter]
    exact ⟨hx0, by simpa using hx0f⟩
  obtain ⟨z, hz⟩ := exists_cycle_of_succ (stepEdge w.steps) _ hT hne
  exact hacyc z hz

/-! ### Soundness of the cycle detector: a dependency cycle makes
`_has_circular_dependency` return `True`. -/

/-- The DFS invariant: every resolved dependency of a finished node (visited
and not on the recursion stack) is itself finished. -/
def dfsClosed (steps : List WorkflowStep) (V S : List String) : Prop :=
  ∀ x, x ∈ V → x ∉ S → ∀ y, stepEdge steps x y → y ∈ V ∧ y ∉ S

lemma dfsClosed_reach {steps : List WorkflowStep} {V S : List String}
    (h : dfsClosed steps V S) {x y : String}
    (hx : x ∈ V) (hxs : x ∉ S)
    (hr : Relation.ReflTransGen (stepEdge steps) x y) : y ∈ V ∧ y ∉ S := by
  induction hr with
  | refl => exact ⟨hx, hxs⟩
  | tail hab hbc ih => exact h _ ih.1 ih.2 _ hbc

lemma filter_length_mono {l : List String} {p q : String → Bool}
    (h : ∀ x, p x = true → q x = true) :
    (l.filter p).length ≤ (l.filter q).length := by
  induction l with
  | nil => simp
  | cons a t ih =>
    rw [List.filter_cons, List.filter_cons]
    by_cases hp : p a = true
    · rw [if_pos hp, if_pos (h a hp)]
      simpa using ih
    · rw [if_neg hp]
      by_cases hq : q a = true
      · rw [if_pos hq]
        exact le_trans ih (Nat.le_succ _)
      · rw [if_neg hq]
        exact ih

lemma filter_length_lt {l : List String} {p q : String → Bool} {a : String}
    (h : ∀ x, p x = true → q x = true) (ha : a ∈ l)
    (hpa : p a = false) (hqa : q a = true) :
    (l.filter p).length < (l.filter q).length := by
  induction l with
  | nil => exact absurd ha (List.not_mem_nil a)
  | cons b t ih =>
    rw [List.filter_cons, List.filter_cons]
    rcases List.mem_cons.mp ha with rfl | hat
    · rw [if_neg (by simp [hpa]), if_pos hqa]
      exact Nat.lt_succ_of_le (filter_length_mono h)
    · by_cases hpb : p b = true
      · rw [if_pos hpb, if_pos (h b hpb)]
        simpa using ih hat
      · rw [if_neg hpb]
        by_cases hqb : q b = true
        · rw [if_pos hqb]
          exact Nat.lt_succ_of_lt (ih hat)
        · rw [if_neg hqb]
          exact ih hat

/-- Number of ids the DFS can still visit — the fuel measure. -/
def dfsBound (steps : List WorkflowStep) (V : List String) : Nat :=
  ((dfsUniv steps).filter (fun z => !(decide (z ∈ V)))).length

lemma dfsBound_le (steps : List WorkflowStep) (V : List String) :
    dfsBound steps V ≤ (dfsUniv steps).length :=
  List.length_filter_le _ _

lemma dfsBound_mono (steps : List WorkflowStep) {V W : List String}
    (h : ∀ z ∈ V, z ∈ W) : dfsBound steps W ≤ dfsBound steps V := by
  apply filter_length_mono
  intro x hx
  simp only [Bool.not_eq_true', decide_eq_false_iff_not] at hx ⊢
  exact fun hc => hx (h x hc)

lemma mem_addElem_self (u : String) (V : List String) : u ∈ addElem u V := by
  unfold addElem
  split_ifs with h
  · exact h
  · exact List.mem_append_right _ (List.mem_singleton.mpr rfl)

lemma subset_addElem (u : String) (V : List String) : ∀ z ∈ V, z ∈ addElem u V := by
  intro z hz
  unfold addElem
  split_ifs
  · exact hz
  · exact List.mem_append_left _ hz

lemma dfsBound_addElem (steps : List WorkflowStep) {V : List String} {u : String}
    (hu : u ∈ dfsUniv steps) (huV : u ∉ V) :
    dfsBound steps (addElem u V) < dfsBound steps V := by
  unfold dfsBound
  refine filter_length_lt ?_ hu ?_ ?_
  · intro x hx
    simp only [Bool.not_eq_true', decide_eq_false_iff_not] at hx ⊢
    exact fun hc => hx (subset_addElem u V x hc)
  · simp [mem_addElem_self u V]
  · simp [huV]

/-- If `visit` returns `False`, the visited set has grown by the argument id
(and possibly more), remains closed under resolved dependencies of finished
nodes, and no finished node lies on a dependency cycle. -/
lemma visit_false_spec (steps : List WorkflowStep) :
    ∀ (fuel : Nat) (sid : String) (V S : List String),
      sid ∈ dfsUniv steps → sid ∉ V → (∀ z ∈ S, z ∈ V) →
      dfsBound steps V < fuel →
      dfsClosed steps V S →
      (∀ x ∈ V, x ∉ S → ¬ Relation.TransGen (stepEdge steps) x x) →
      ∀ res, visit steps fuel sid V S = (false, res) →
        (∀ z ∈ V, z ∈ res) ∧ sid ∈ res
        ∧ dfsClosed steps res S
        ∧ (∀ x ∈ res, x ∉ S → ¬ Relation.TransGen (stepEdge steps) x x) := by
  intro fuel
  induction fuel with
  | zero =>
    intro sid V S hU hV hSV hfb
    exact absurd hfb (Nat.not_lt_zero _)
  | succ f ihf =>
    intro sid V S hU hV hSV hfb hcl hnc res hrun
    have hsidS : sid ∉ S := fun h => hV (hSV sid h)
    have hv1e : addElem sid V = V ++ [sid] := by unfold addElem; rw [if_neg hV]
    have hr1e : addElem sid S = S ++ [sid] := by unfold addElem; rw [if_neg hsidS]
    have hV1 : ∀ z ∈ V, z ∈ addElem sid V := subset_addElem sid V
    have hsidV1 : sid ∈ addElem sid V := mem_addElem_self sid V
    rw [visit] at hrun
    rcases hst : getStepL steps sid with _ | st
    · rw [hst] at hrun
      have hrun2 : ((false, addElem sid V) : Bool × List String) = (false, res) := hrun
      injection hrun2 with h1 h2
      subst h2
      refine ⟨hV1, hsidV1, ?_, ?_⟩
      · intro x hx hxS y hxy
        rw [hv1e] at hx
        rcases List.mem_append.mp hx with hx2 | hx2
        · obtain ⟨hy1, hy2⟩ := hcl x hx2 hxS y hxy
          exact ⟨hV1 y hy1, hy2⟩
        · obtain ⟨s, hgs, -⟩ := hxy
          rw [List.mem_singleton.mp hx2, hst] at hgs
          exact Option.noConfusion hgs
      · intro x hx hxS hcycx
        rw [hv1e] at hx
        rcases List.mem_append.mp hx with hx2 | hx2
        · exact hnc x hx2 hxS hcycx
        · obtain ⟨y, hxy, -⟩ := Relation.TransGen.head'_iff.mp hcycx
          obtain ⟨s, hgs, -⟩ := hxy
          rw [List.mem_singleton.mp hx2, hst] at hgs
          exact Option.noConfusion hgs
    · rw [hst] at hrun
      have hrun2 : visitDeps (visit steps f) st.dependencies (addElem sid V) (addElem sid S)
          = (false, res) := hrun
      have hstmem : st ∈ steps := List.mem_of_find?_eq_some hst
      have hdepU : ∀ dp ∈ st.dependencies, dp ∈ dfsUniv steps := by
        intro dp hdp
        unfold dfsUniv
        exact List.mem_append_right _ (List.mem_flatMap.mpr ⟨st, hstmem, hdp⟩)
      have hr1v1 : ∀ z ∈ addElem sid S, z ∈ addElem sid V := by
        intro z hz
        rw [hr1e] at hz
        rw [hv1e]
        rcases List.mem_append.mp hz with hz | hz
        · exact List.mem_append_left _ (hSV z hz)
        · exact List.mem_append_right _ hz
      have hclv1 : dfsClosed steps (addElem sid V) (addElem sid S) := by
        intro x hx hxS y hxy
        have hxS2 : x ∉ S := fun h => hxS (by rw [hr1e]; exact List.mem_append_left _ h)
        have hxsid : x ≠ sid := fun h => hxS (by
          rw [hr1e, h]
          exact List.mem_append_right _ (List.mem_singleton.mpr rfl))
        have hxV : x ∈ V := by
          rw [hv1e] at hx
          rcases List.mem_append.mp hx with hx2 | hx2
          · exact hx2
          · exact absurd (List.mem_singleton.mp hx2) hxsid
        obtain ⟨hy1, hy2⟩ := hcl x hxV hxS2 y hxy
        refine ⟨hV1 y hy1, ?_⟩
        rw [hr1e]
        intro hy3
        rcases List.mem_append.mp hy3 with hy3 | hy3
        · exact hy2 hy3
        · exact hV (List.mem_singleton.mp hy3 ▸ hy1)
      have hncv1 : ∀ x ∈ addElem sid V, x ∉ addElem sid S →
          ¬ Relation.TransGen (stepEdge steps) x x := by
        intro x hx hxS
        have hxsid : x ≠ sid := fun h => hxS (by
          rw [hr1e, h]
          exact List.mem_append_right _ (List.mem_singleton.mpr rfl))
        have hxV : x ∈ V := by
          rw [hv1e] at hx
          rcases List.mem_append.mp hx with hx2 | hx2
          · exact hx2
          · exact absurd (List.mem_singleton.mp hx2) hxsid
        have hxS2 : x ∉ S := fun h => hxS (by rw [hr1e]; exact List.mem_append_left _ h)
        exact hnc x hxV hxS2
      have hbv1 : dfsBound steps (addElem sid V) < f := by
        have h1 := dfsBound_addElem steps hU hV
        omega
      have inner : ∀ (ds : List String) (W : List String),
          (∀ dp ∈ ds, dp ∈ dfsUniv steps) →
          (∀ z ∈ addElem sid V, z ∈ W) →
          dfsClosed steps W (addElem sid S) →
          (∀ x ∈ W, x ∉ addElem sid S → ¬ Relation.TransGen (stepEdge steps) x x) →
          ∀ res2, visitDeps (visit steps f) ds W (addElem sid S) = (false, res2) →
            (∀ z ∈ W, z ∈ res2) ∧ dfsClosed steps res2 (addElem sid S)
            ∧ (∀ x ∈ res2, x ∉ addElem sid S → ¬ Relation.TransGen (stepEdge steps) x x)
            ∧ (∀ dp ∈ ds, dp ∈ res2 ∧ dp ∉ addElem sid S) := by
        intro ds
        induction ds with
        | nil =>
          intro W hdsU hWv hclW hncW res2 h2
          have h2b : ((false, W) : Bool × List String) = (false, res2) := h2
          injection h2b with h2c h2d
          subst h2d
          exact ⟨fun z hz => hz, hclW, hncW,
            fun dp hdp => absurd hdp (List.not_mem_nil dp)⟩
        | cons dp ds ihds =>
          intro W hdsU hWv hclW hncW res2 h2
          have hdsU2 : ∀ e ∈ ds, e ∈ dfsUniv steps :=
            fun e he => hdsU e (List.mem_cons_of_mem dp he)
          simp only [visitDeps] at h2
          by_cases hdW : dp ∈ W
          · rw [if_pos hdW] at h2
            by_cases hdr : dp ∈ addElem sid S
            · rw [if_pos hdr] at h2
              simp at h2
            · rw [if_neg hdr] at h2
              obtain ⟨hm2, hcl2, hnc2, hds2⟩ := ihds W hdsU2 hWv hclW hncW res2 h2
              refine ⟨hm2, hcl2, hnc2, ?_⟩
              intro e he
              rcases List.mem_cons.mp he with rfl | he
              · exact ⟨hm2 e hdW, hdr⟩
              · exact hds2 e he
          · rw [if_neg hdW] at h2
            rcases hv : visit steps f dp W (addElem sid S) with ⟨b, v2⟩
            rw [hv] at h2
            cases b with
            | true =>
              have h2b : ((true, v2) : Bool × List String) = (false, res2) := h2
              simp at h2b
            | false =>
              have h2b : visitDeps (visit steps f) ds v2 (addElem sid S) = (false, res2) := h2
              have hWbound : dfsBound steps W < f := by
                have := dfsBound_mono steps hWv
                omega
              obtain ⟨hWv2, hdpv2, hclv2, hncv2⟩ := ihf dp W (addElem sid S)
                (hdsU dp (List.mem_cons_self dp ds)) hdW
                (fun z hz => hWv _ (hr1v1 z hz)) hWbound hclW hncW v2 hv
              obtain ⟨hm3, hcl3, hnc3, hds3⟩ := ihds v2 hdsU2
                (fun z hz => hWv2 _ (hWv z hz)) hclv2 hncv2 res2 h2b
              refine ⟨fun z hz => hm3 _ (hWv2 z hz), hcl3, hnc3, ?_⟩
              intro e he
              rcases List.mem_cons.mp he with rfl | he
              · exact ⟨hm3 _ hdpv2, fun hc => hdW (hWv _ (hr1v1 e hc))⟩
              · exact hds3 e he
      obtain ⟨hmono, hclr1, hncr1, hdeps⟩ := inner st.dependencies (addElem sid V) hdepU
        (fun z hz => hz) hclv1 hncv1 res hrun2
      refine ⟨fun z hz => hmono _ (hV1 z hz), hmono _ hsidV1, ?_, ?_⟩
      · intro x hx hxS y hxy
        by_cases hxsid : x = sid
        · subst hxsid
          obtain ⟨s, hgs, hy⟩ := hxy
          rw [hst] at hgs
          have hyst : y ∈ st.dependencies := by rw [Option.some.inj hgs]; exact hy
          obtain ⟨hy1, hy2⟩ := hdeps y hyst
          exact ⟨hy1, fun hc => hy2 (by rw [hr1e]; exact List.mem_append_left _ hc)⟩
        · have hxr1 : x ∉ addElem sid S := by
            rw [hr1e]
            intro hc
            rcases List.mem_append.mp hc with hc | hc
            · exact hxS hc
            · exact hxsid (List.mem_singleton.mp hc)
          obtain ⟨hy1, hy2⟩ := hclr1 x hx hxr1 y hxy
          exact ⟨hy1, fun hc => hy2 (by rw [hr1e]; exact List.mem_append_left _ hc)⟩
      · intro x hx hxS hcycx
        by_cases hxsid : x = sid
        · subst hxsid
          obtain ⟨y, hxy, hyx⟩ := Relation.TransGen.head'_iff.mp hcycx
          obtain ⟨s, hgs, hy⟩ := hxy
          rw [hst] at hgs
          have hyst : y ∈ st.dependencies := by rw [Option.some.inj hgs]; exact hy
          obtain ⟨hyres, hyr1⟩ := hdeps y hyst
          obtain ⟨-, hxr1⟩ := dfsClosed_reach hclr1 hyres hyr1 hyx
          exact hxr1 (by rw [hr1e]; exact List.mem_append_right _ (List.mem_singleton.mpr rfl))
        · have hxr1 : x ∉ addElem sid S := by
            rw [hr1e]
            intro hc
            rcases List.mem_append.mp hc with hc | hc
            · exact hxS hc
            · exact hxsid (List.mem_singleton.mp hc)
          exact hncr1 x hx hxr1 hcycx

/-- If the root loop reports no cycle, the final visited set covers all step
ids of the remaining steps and carries the invariants. -/
lemma hasCircularAux_false_spec (steps : List WorkflowStep) :
    ∀ (rest : List WorkflowStep) (V : List String),
      (∀ st ∈ rest, st ∈ steps) →
      dfsClosed steps V [] →
      (∀ x ∈ V, ¬ Relation.TransGen (stepEdge steps) x x) →
      hasCircularAux steps ((dfsUniv steps).length + 1) rest V = false →
      ∃ V2, (∀ z ∈ V, z ∈ V2) ∧ dfsClosed steps V2 []
        ∧ (∀ x ∈ V2, ¬ Relation.TransGen (stepEdge steps) x x)
        ∧ (∀ st ∈ rest, st.step_id ∈ V2) := by
  intro rest
  induction rest with
  | nil =>
    intro V hrs hcl hnc hloop
    exact ⟨V, fun z hz => hz, hcl, hnc, fun st hst => absurd hst (List.not_mem_nil st)⟩
  | cons st rest ih =>
    intro V hrs hcl hnc hloop
    have hrs2 : ∀ s ∈ rest, s ∈ steps := fun s hs => hrs s (List.mem_cons_of_mem st hs)
    simp only [hasCircularAux] at hloop
    by_cases hsv : st.step_id ∈ V
    · rw [if_pos hsv] at hloop
      obtain ⟨V2, hsub, hcl2, hnc2, hall⟩ := ih V hrs2 hcl hnc hloop
      refine ⟨V2, hsub, hcl2, hnc2, ?_⟩
      intro s hs
      rcases List.mem_cons.mp hs with rfl | hs
      · exact hsub _ hsv
      · exact hall s hs
    · rw [if_neg hsv] at hloop
      rcases hv : visit steps ((dfsUniv steps).length + 1) st.step_id V [] with ⟨b, v2⟩
      rw [hv] at hloop
      cases b with
      | true =>
        have hb : (true : Bool) = false := hloop
        exact absurd hb (by simp)
      | false =>
        have hloop2 : hasCircularAux steps ((dfsUniv steps).length + 1) rest v2 = false := hloop
        have hstU : st.step_id ∈ dfsUniv steps := by
          unfold dfsUniv
          exact List.mem_append_left _
            (List.mem_map.mpr ⟨st, hrs st (List.mem_cons_self st rest), rfl⟩)
        obtain ⟨hVv2, hsid2, hcl2, hnc2⟩ := visit_false_spec steps
          ((dfsUniv steps).length + 1) st.step_id V []
          hstU hsv (fun z hz => absurd hz (List.not_mem_nil z))
          (Nat.lt_succ_of_le (dfsBound_le steps V)) hcl
          (fun x hx _ => hnc x hx) v2 hv
        obtain ⟨V2, hsub, hcl3, hnc3, hall⟩ := ih v2 hrs2 hcl2
          (fun x hx => hnc2 x hx (List.not_mem_nil x)) hloop2
        refine ⟨V2, fun z hz => hsub _ (hVv2 z hz), hcl3, hnc3, ?_⟩
        intro s hs
        rcases List.mem_cons.mp hs with rfl | hs
        · exact hsub _ hsid2
        · exact hall s hs

/-- Completeness of `_has_circular_dependency`: a `False` answer really means
the resolved dependency relation has no cycle. -/
lemma no_cycle_of_hasCircular_false {w : Workflow}
    (h : w.hasCircularDependency = false) :
    ∀ z, ¬ Relation.TransGen (stepEdge w.steps) z z := by
  intro z hz
  unfold Workflow.hasCircularDependency at h
  obtain ⟨V2, -, -, hnc, hall⟩ := hasCircularAux_false_spec w.steps w.steps []
    (fun st hst => hst)
    (fun x hx => absurd hx (List.not_mem_nil x))
    (fun x hx => absurd hx (List.not_mem_nil x)) h
  have hzout : ∃ y, stepEdge w.steps z y := by
    rcases Relation.TransGen.head'_iff.mp hz with ⟨b, hzb, -⟩
    exact ⟨b, hzb⟩
  obtain ⟨y, s, hgs, -⟩ := hzout
  have hsmem : s ∈ w.steps := List.mem_of_find?_eq_some hgs
  have hsid : s.step_id = z := by simpa using List.find?_some hgs
  exact hnc z (hsid ▸ hall s hsmem) hz

/-- A dependency cycle always surfaces as the cycle error in `validate`. -/
lemma cycle_mem_validate {w : Workflow}
    (hcyc : ∃ z, Relation.TransGen (stepEdge w.steps) z z) :
    cycleError ∈ w.validate := by
  have hflag : w.hasCircularDependency = true := by
    by_contra h
    rw [Bool.not_eq_true] at h
    obtain ⟨z, hz⟩ := hcyc
    exact no_cycle_of_hasCircular_false h z hz
  unfold Workflow.validate
  rw [hflag]
  simp

/-- Index extraction for membership in a flattened prefix. -/
lemma mem_take_flatten_idx {L : List (List String)} {k : Nat} {b : String}
    (h : b ∈ (L.take k).flatten) :
    ∃ j, j < k ∧ ∃ lev, L.get? j = some lev ∧ b ∈ lev := by
  rw [List.mem_flatten] at h
  obtain ⟨lev, hlev, hbl⟩ := h
  obtain ⟨j, hj⟩ := List.mem_iff_get?.mp hlev
  have hjlt : j < k := by
    have h1 := (List.get?_eq_some.mp hj).1
    have h2 : (L.take k).length ≤ k := by
      rw [List.length_take]
      exact min_le_left _ _
    omega
  refine ⟨j, hjlt, lev, ?_, hbl⟩
  rw [← List.get?_take hjlt]
  exact hj

/-- A step that can reach a dependency cycle never appears in any level of
the execution order. -/
lemma tainted_not_mem_level {w : Workflow} :
    ∀ k lev, w.get_execution_order.get? k = some lev → ∀ x ∈ lev,
      ¬ ∃ y, Relation.ReflTransGen (stepEdge w.steps) x y
          ∧ Relation.TransGen (stepEdge w.steps) y y := by
  intro k
  induction k using Nat.strong_induction_on with
  | _ k ihk =>
    rintro lev hlev x hx ⟨y, hxy, hyy⟩
    obtain ⟨b, hxb, hbt⟩ : ∃ b, stepEdge w.steps x b
        ∧ ∃ y2, Relation.ReflTransGen (stepEdge w.steps) b y2
            ∧ Relation.TransGen (stepEdge w.steps) y2 y2 := by
      rcases Relation.ReflTransGen.cases_head hxy with rfl | ⟨c, hxc, hcy⟩
      · obtain ⟨b, hxb, hbx⟩ := Relation.TransGen.head'_iff.mp hyy
        exact ⟨b, hxb, x, hbx, hyy⟩
      · exact ⟨c, hxc, y, hcy, hyy⟩
    obtain ⟨s, hget, hbdep⟩ := hxb
    have hsmem : s ∈ w.steps := List.mem_of_find?_eq_some hget
    have hsid : s.step_id = x := by simpa using List.find?_some hget
    have hbids : b ∈ keysOf (w.steps.map (·.step_id)) := by
      obtain ⟨y2, hby2, hy2⟩ := hbt
      have hout : ∃ c, stepEdge w.steps b c := by
        rcases Relation.ReflTransGen.cases_head hby2 with rfl | ⟨c, hbc, -⟩
        · obtain ⟨c, hbc, -⟩ := Relation.TransGen.head'_iff.mp hy2
          exact ⟨c, hbc⟩
        · exact ⟨c, hbc⟩
      obtain ⟨c, s2, hget2, -⟩ := hout
      have hs2mem : s2 ∈ w.steps := List.mem_of_find?_eq_some hget2
      have hs2id : s2.step_id = b := by simpa using List.find?_some hget2
      rw [keysOf_mem]
      exact List.mem_map.mpr ⟨s2, hs2mem, hs2id⟩
    have hxgb : x ∈ (buildGraphDeg w.steps).1 b :=
      (buildGraphDeg_graph w.steps b x).mpr ⟨hbids, s, hsmem, hsid, hbdep⟩
    obtain ⟨-, hc3⟩ := (get_execution_order_spec w).2.2.1 k lev hlev
    have hbtake : b ∈ (w.get_execution_order.take k).flatten := hc3 x hx b hxgb
    obtain ⟨j, hjk, lev2, hlev2, hbl2⟩ := mem_take_flatten_idx hbtake
    exact ihk j hjk lev2 hlev2 b hbl2 hbt

/-- C1.  For a workflow whose resolved dependency relation is acyclic, whose
dependency ids all resolve and whose step ids are distinct,
`get_execution_order` partitions the step ids into levels with every
dependency of a step in a strictly earlier level; any workflow with a
dependency cycle gets the cycle error from `validate`; concretely the diamond
workflow is ordered `[[A], [B, C], [D]]` and the two-cycle workflow fails
`validate` with the cycle error. -/
theorem C1_execution_order_and_cycle_validate :
    (∀ w : Workflow,
      (w.steps.map (·.step_id)).Nodup →
      (∀ s ∈ w.steps, ∀ dp ∈ s.dependencies, dp ∈ w.steps.map (·.step_id)) →
      (∀ z, ¬ Relation.TransGen (stepEdge w.steps) z z) →
      (∀ x, x ∈ w.get_execution_order.flatten ↔ x ∈ w.steps.map (·.step_id))
      ∧ w.get_execution_order.flatten.Nodup
      ∧ (∀ k lev, w.get_execution_order.get? k = some lev →
          ∀ x ∈ lev, ∀ s, getStepL w.steps x = some s →
            ∀ dp ∈ s.dependencies, dp ∈ (w.get_execution_order.take k).flatten))
    ∧ (∀ w : Workflow, (∃ z, Relation.TransGen (stepEdge w.steps) z z) →
        cycleError ∈ w.validate)
    ∧ diamondWorkflow.get_execution_order = [["A"], ["B", "C"], ["D"]]
    ∧ cycleError ∈ cyclicWorkflow.validate := by
  refine ⟨?_, fun w hcyc => cycle_mem_validate hcyc, by decide, by decide⟩
  intro w hnd hres hacyc
  obtain ⟨c1, c2, c3, -⟩ := get_execution_order_spec w
  refine ⟨?_, c2, ?_⟩
  · intro x
    constructor
    · intro hx
      rw [← keysOf_mem]
      exact c1 x hx
    · intro hx
      exact ids_subset_flatten_of_acyclic hnd hacyc x ((keysOf_mem _ x).mpr hx)
  · intro k lev hlev x hx s hget dp hdp
    have hsmem : s ∈ w.steps := List.mem_of_find?_eq_some hget
    have hsid : s.step_id = x := by simpa using List.find?_some hget
    have hdpids : dp ∈ keysOf (w.steps.map (·.step_id)) := by
      rw [keysOf_mem]
      exact hres s hsmem dp hdp
    have hxgdp : x ∈ (buildGraphDeg w.steps).1 dp :=
      (buildGraphDeg_graph w.steps dp x).mpr ⟨hdpids, s, hsmem, hsid, hdp⟩
    exact (c3 k lev hlev).2 x hx dp hxgdp

/-- C1 witness: the acyclic part applied to the diamond workflow (its
acyclicity obtained from the cycle detector's completeness) and the cycle
part applied to the two-cycle workflow. -/
theorem C1_execution_order_and_cycle_validate_witness :
    ((∀ x, x ∈ diamondWorkflow.get_execution_order.flatten
        ↔ x ∈ diamondWorkflow.steps.map (·.step_id))
      ∧ diamondWorkflow.get_execution_order.flatten.Nodup)
    ∧ cycleError ∈ cyclicWorkflow.validate := by
  have h := C1_execution_order_and_cycle_validate
  have hacyc : ∀ z, ¬ Relation.TransGen (stepEdge diamondWorkflow.steps) z z :=
    no_cycle_of_hasCircular_false (by decide)
  obtain ⟨ha, hb, -⟩ := h.1 diamondWorkflow (by decide) (by decide) hacyc
  exact ⟨⟨ha, hb⟩, h.2.2.2⟩

/-- C9.  For a workflow with a dependency cycle, `get_execution_order`
terminates (more fuel leaves the result unchanged), emits only step ids,
omits every step that can reach a cycle (in particular every step on a
cycle), covers strictly fewer than all step ids, and appends no fallback
level (every emitted level is a nonempty batch of in-degree-zero ids). -/
theorem C9_cyclic_workflow_omits_tainted_steps (w : Workflow)
    (hcyc : ∃ z, Relation.TransGen (stepEdge w.steps) z z) :
    (∀ extra : Nat,
      kahnRun (buildGraphDeg w.steps).1
        (degSum (keysOf (w.steps.map (·.step_id))) (buildGraphDeg w.steps).2
          + (keysOf (w.steps.map (·.step_id))).length + 1 + extra)
        (buildGraphDeg w.steps).2
        ((keysOf (w.steps.map (·.step_id))).filter
          (fun x => (buildGraphDeg w.steps).2 x = 0))
        = w.get_execution_order)
    ∧ (∀ x, x ∈ w.get_execution_order.flatten → x ∈ w.steps.map (·.step_id))
    ∧ (∀ x, (∃ y, Relation.ReflTransGen (stepEdge w.steps) x y
          ∧ Relation.TransGen (stepEdge w.steps) y y) →
        x ∉ w.get_execution_order.flatten)
    ∧ (∃ x, x ∈ w.steps.map (·.step_id) ∧ x ∉ w.get_execution_order.flatten)
    ∧ (∀ lev ∈ w.get_execution_order, lev ≠ []) := by
  have hnd := keysOf_nodup (w.steps.map (·.step_id))
  have hg : ∀ u x, x ∈ (buildGraphDeg w.steps).1 u → x ∈ keysOf (w.steps.map (·.step_id)) :=
    fun u x hx => buildGraphDeg_targets w.steps u x hx
  obtain ⟨c1, -, c3, -⟩ := get_execution_order_spec w
  have htaint : ∀ x, (∃ y, Relation.ReflTransGen (stepEdge w.steps) x y
      ∧ Relation.TransGen (stepEdge w.steps) y y) →
      x ∉ w.get_execution_order.flatten := by
    intro x hxt hxf
    rw [List.mem_flatten] at hxf
    obtain ⟨lev, hlev, hxl⟩ := hxf
    obtain ⟨k, hk⟩ := List.mem_iff_get?.mp hlev
    exact tainted_not_mem_level k lev hk x hxl hxt
  refine ⟨?_, ?_, htaint, ?_, ?_⟩
  · intro extra
    apply kahnRun_fuel_stable hg hnd
    have := List.length_filter_le (fun x => decide ((buildGraphDeg w.steps).2 x = 0))
      (keysOf (w.steps.map (·.step_id)))
    omega
  · intro x hx
    rw [← keysOf_mem]
    exact c1 x hx
  · obtain ⟨z, hz⟩ := hcyc
    refine ⟨z, ?_, htaint z ⟨z, Relation.ReflTransGen.refl, hz⟩⟩
    obtain ⟨b, hzb, -⟩ := Relation.TransGen.head'_iff.mp hz
    obtain ⟨s, hget, -⟩ := hzb
    have hsmem : s ∈ w.steps := List.mem_of_find?_eq_some hget
    have hsid : s.step_id = z := by simpa using List.find?_some hget
    exact List.mem_map.mpr ⟨s, hsmem, hsid⟩
  · intro lev hlev
    obtain ⟨k, hk⟩ := List.mem_iff_get?.mp hlev
    exact (c3 k lev hk).1

/-- C9 witness: the two-cycle workflow `A↔B`, where a concrete cycle is
exhibited; every step can reach the cycle, so the computed order omits all
steps and is strictly smaller than the id set. -/
theorem C9_cyclic_workflow_omits_tainted_steps_witness :
    (∀ x, (∃ y, Relation.ReflTransGen (stepEdge cyclicWorkflow.steps) x y
        ∧ Relation.TransGen (stepEdge cyclicWorkflow.steps) y y) →
      x ∉ cyclicWorkflow.get_execution_order.flatten)
    ∧ (∃ x, x ∈ cyclicWorkflow.steps.map (·.step_id)
        ∧ x ∉ cyclicWorkflow.get_execution_order.flatten)
    ∧ (∀ lev ∈ cyclicWorkflow.get_execution_order, lev ≠ []) := by
  have eAB : stepEdge cyclicWorkflow.steps "A" "B" :=
    ⟨mkStep "A" ["B"], by decide, by decide⟩
  have eBA : stepEdge cyclicWorkflow.steps "B" "A" :=
    ⟨mkStep "B" ["A"], by decide, by decide⟩
  have h := C9_cyclic_workflow_omits_tainted_steps cyclicWorkflow
    ⟨"A", Relation.TransGen.head eAB (Relation.TransGen.single eBA)⟩
  exact ⟨h.2.2.1, h.2.2.2.1, h.2.2.2.2⟩

end ShoppingAgent
